import Mathlib

/-!
Verification of the promoStandardsSoap client library core against its
natural-language specification.  The JavaScript sources are shallowly
embedded: JS values become the inductive `JSValue`, objects become ordered
association lists (insertion order preserved, as in JS), and each relevant
source function is translated into an executable Lean definition that keeps
the source control flow.  Library helpers the code relies on
(lodash camelCase word splitting, the xml2js builder, the ECMAScript
string-to-number grammar) are embedded from their documented semantics,
since their behaviour is part of the functions under scrutiny.
-/

/-- Model of a JavaScript value as used by this library: null, undefined,
booleans, numbers (modelled as exact rationals, with the two infinities kept
separate; binary64 rounding is abstracted away because every claim here
concerns classification of values, not rounding), strings, arrays and
objects.  Objects are ordered association lists, mirroring JS property
insertion order. -/
inductive JSValue where
  | null : JSValue
  | undefined : JSValue
  | bool : Bool → JSValue
  | rat : ℚ → JSValue
  | posInf : JSValue
  | negInf : JSValue
  | str : String → JSValue
  | arr : List JSValue → JSValue
  | obj : List (String × JSValue) → JSValue

/-- JS truthiness of a value:  null, undefined, false, 0 and the empty
string are falsy; every object and array is truthy. -/
def jsTruthy : JSValue → Bool
  | .null => false
  | .undefined => false
  | .bool b => b
  | .rat q => q != 0
  | .posInf => true
  | .negInf => true
  | .str s => !s.isEmpty
  | .arr _ => true
  | .obj _ => true

/-- JS logical or on values:  `a || b` yields `a` when `a` is truthy and
`b` otherwise. -/
def jsOr (a b : JSValue) : JSValue :=
  if jsTruthy a then a else b

/-- First binding of a key in an ordered association list (JS objects in
this model never hold duplicate keys, but lookup is defined totally). -/
def lookupKey (fields : List (String × JSValue)) (k : String) : Option JSValue :=
  match fields with
  | [] => none
  | (k₂, v) :: rest => if k₂ = k then some v else lookupKey rest k

/-- JS property write `o[k] = v` on an ordered association list: an
existing key keeps its position and gets the new value, a new key is
appended at the end. -/
def objSet (fields : List (String × JSValue)) (k : String) (v : JSValue) :
    List (String × JSValue) :=
  match fields with
  | [] => [(k, v)]
  | (k₂, w) :: rest =>
      if k₂ = k then (k₂, v) :: rest else (k₂, w) :: objSet rest k v

/-- JS object spread `\x7b ...base, ...extra \x7d`: every binding of
`extra` is written over `base` in order, so on a key collision the value
from `extra` wins. -/
def objMerge (base extra : List (String × JSValue)) : List (String × JSValue) :=
  extra.foldl (fun acc kv => objSet acc kv.1 kv.2) base

/-- Property read `j[k]`, totalised the way the source uses it: reading a
property of a non-object yields undefined (the source only ever reads
missing keys or uses optional chaining past the first read). -/
def jsGet (j : JSValue) (k : String) : JSValue :=
  match j with
  | .obj fields => (lookupKey fields k).getD .undefined
  | _ => .undefined

/-! ## PromoStandardsAuth (src/unnamed/part_007) -/

/-- Credentials object handed to the `PromoStandardsAuth` constructor.
Absent JS properties are `none`; a present property holds its string.  The
`includePassword` flag is a JS value compared against `false` with strict
equality in the source. -/
structure Credentials where
  id : Option String := none
  username : Option String := none
  password : Option String := none
  wsVersion : Option String := none
  version : Option String := none
  includePassword : Option Bool := none
deriving DecidableEq, Repr

/-- Truthiness of an optional string property: absent and empty are falsy. -/
def strTruthy : Option String → Bool
  | none => false
  | some s => !s.isEmpty

/-- JS `a || b` on two optional string properties. -/
def strOr (a b : Option String) : Option String :=
  if strTruthy a then a else b

/-- Error kinds raised by the embedded auth module. -/
inductive AuthError where
  | missingId : AuthError
  | idTooLong : AuthError
  | passwordTooLong : AuthError
  | missingWsVersion : AuthError
deriving DecidableEq, Repr

/-- Translation of `PromoStandardsAuth.validateCredentials` (part_007 lines
15 to 36): reject when neither `id` nor `username` is truthy; reject a
truthy `id` longer than 64 characters; reject a truthy `password` longer
than 64 characters.  The `username` property is never length checked by the
source. -/
def validateCredentials (c : Credentials) : Except AuthError Unit := do
  if ¬ strTruthy c.id ∧ ¬ strTruthy c.username then
    throw .missingId
  if strTruthy c.id ∧ 64 < (c.id.getD "").length then
    throw .idTooLong
  if strTruthy c.password ∧ 64 < (c.password.getD "").length then
    throw .passwordTooLong
  return ()

/-- The constructed `PromoStandardsAuth` instance state. -/
structure PromoStandardsAuth where
  id : Option String
  password : Option String
  wsVersion : Option String
  includePassword : Bool
deriving DecidableEq, Repr

/-- Translation of the `PromoStandardsAuth` constructor (part_007 lines
4 to 13): validate, then keep `id || username`, `password`, and
`wsVersion || version`; `includePassword` is `credentials.includePassword
!== false`. -/
def mkAuth (c : Credentials) : Except AuthError PromoStandardsAuth := do
  validateCredentials c
  return { id := strOr c.id c.username
           password := c.password
           wsVersion := strOr c.wsVersion c.version
           includePassword := c.includePassword ≠ some false }

/-- Translation of `PromoStandardsAuth.buildAuthHeader` (part_007 lines 38
to 60): the effective version is `wsVersion || this.wsVersion` and must be
truthy; the header object holds `wsVersion`, `id`, and, when
`includePassword` and the password are truthy, `password`. -/
def buildAuthHeader (a : PromoStandardsAuth) (wsVersion : Option String) :
    Except AuthError (List (String × JSValue)) := do
  let version := strOr wsVersion a.wsVersion
  if ¬ strTruthy version then
    throw .missingWsVersion
  let base : List (String × JSValue) :=
    [("wsVersion", .str (version.getD "")),
     ("id", (a.id.map JSValue.str).getD .undefined)]
  if a.includePassword ∧ strTruthy a.password then
    return base ++ [("password", .str (a.password.getD ""))]
  return base

/-- Translation of `PromoStandardsAuth.injectAuth` (part_007 lines 62 to
77): build the auth header; a payload that is not a JS object (or is null)
is replaced by the header alone; an array payload gets the header prepended
as a fresh array; an object payload is merged as
`\x7b ...authHeader, ...requestData \x7d`, so payload bindings overwrite
header bindings. -/
def injectAuth (a : PromoStandardsAuth) (requestData : JSValue)
    (wsVersion : Option String) : Except AuthError JSValue := do
  let authHeader ← buildAuthHeader a wsVersion
  match requestData with
  | .arr items => return .arr (.obj authHeader :: items)
  | .obj fields => return .obj (objMerge authHeader fields)
  | _ => return .obj authHeader

/-! ## SoapClient fault extraction (src/promostandards-js/src/core/soap-client.js) -/

/-- Optional chained property read `j?.[k]`: nullish receivers yield
undefined instead of throwing. -/
def jsOptGet (j : JSValue) (k : String) : JSValue :=
  match j with
  | .null => .undefined
  | .undefined => .undefined
  | other => jsGet other k

/-- Translation of `SoapClient.extractSoapFault` (soap-client.js lines 216
to 225).  The envelope is read under the exact keys `soap:Envelope`,
`SOAP-ENV:Envelope`, `soapenv:Envelope`, `Envelope` (first truthy wins, as
with the JS or chain), the body under the analogous body keys, and the
fault only under `soap:Fault`, `SOAP-ENV:Fault`, `Fault`.  A nullish input
makes the first plain property read throw; the surrounding try block turns
that into null. -/
def extractSoapFault (j : JSValue) : JSValue :=
  match j with
  | .null => .null
  | .undefined => .null
  | other =>
      let env := jsOr (jsGet other "soap:Envelope")
        (jsOr (jsGet other "SOAP-ENV:Envelope")
          (jsOr (jsGet other "soapenv:Envelope") (jsGet other "Envelope")))
      let body := jsOr (jsOptGet env "soap:Body")
        (jsOr (jsOptGet env "SOAP-ENV:Body")
          (jsOr (jsOptGet env "soapenv:Body") (jsOptGet env "Body")))
      jsOr (jsOptGet body "soap:Fault")
        (jsOr (jsOptGet body "SOAP-ENV:Fault") (jsOptGet body "Fault"))

/-- Lowercasing of a string, character by character (JS `toLowerCase` on
the ASCII names involved here). -/
def lowerStr (s : String) : String :=
  String.mk (s.data.map Char.toLower)

/-- Whether `pat` occurs as a contiguous run inside `cs` (used to state the
claim wording `name contains fault case-insensitively`). -/
def listHasRun (cs pat : List Char) : Bool :=
  match cs with
  | [] => pat.isEmpty
  | _ :: rest => (pat.isPrefixOf cs) || listHasRun rest pat

/-- Whether the string `pat` occurs inside `s`. -/
def strHasRun (s pat : String) : Bool :=
  listHasRun s.data pat.data

/-- The document used to refute claim C2: a standard envelope and body
whose only fault child is keyed `soapenv:Fault`, a name that does contain
the word fault, but which the source never looks up. -/
def c2Doc : JSValue :=
  .obj [("Envelope", .obj [("Body", .obj
    [("soapenv:Fault", .obj [("faultcode", .str "soap:Server"),
                             ("faultstring", .str "boom")])])])]

/-! ## BaseService response cache (src/promostandards-js/src/core/base-service.js) -/

/-- A decoded invoker cache entry: the stored payload and the epoch
millisecond timestamp written by `setCache`. -/
structure CacheEntry where
  data : JSValue
  timestamp : ℤ

/-- Translation of `BaseService.getFromCache` (base-service.js lines 143 to
163) for one key: the stored slot for the key (if any) is decoded, its age
`now - timestamp` is compared with the TTL, an entry strictly older than
the TTL is deleted from the cache and reported as a miss, and a fresh entry
is returned unchanged.  The returned pair is (lookup result, slot content
after the lookup). -/
def getFromCache (slot : Option CacheEntry) (now ttl : ℤ) :
    Option JSValue × Option CacheEntry :=
  match slot with
  | none => (none, none)
  | some e =>
      if ttl < now - e.timestamp then (none, none)
      else (some e.data, some e)

/-! ## Lodash camelCase (the `_.camelCase` used by `XmlConverter.normalizeKey`)

The word splitter below reproduces the lodash `words` regular expression on
the name universe this library meets: ASCII letters, digits and separator
characters.  Uppercase runs keep every character except that a run followed
by a lowercase letter donates its last character to the following word;
digit runs form their own words; every other character is a separator and
is dropped.  (Ordinal suffixes such as `1st`, which lodash treats
specially, never appear in XML names handled here and are outside the
modelled universe.) -/

/-- ASCII lowercase letter test. -/
def isLowerC (c : Char) : Bool := 97 ≤ c.toNat && c.toNat ≤ 122

/-- ASCII uppercase letter test. -/
def isUpperC (c : Char) : Bool := 65 ≤ c.toNat && c.toNat ≤ 90

/-- ASCII digit test. -/
def isDigitC (c : Char) : Bool := 48 ≤ c.toNat && c.toNat ≤ 57

/-- Character class of the pending word while splitting. -/
inductive CClass where
  | start : CClass
  | low : CClass
  | up : CClass
  | dig : CClass
deriving DecidableEq, Repr

/-- Emit the pending reversed word, if non-empty, in front of the already
emitted words. -/
def flushInto (accRev : List Char) (ws : List (List Char)) : List (List Char) :=
  match accRev with
  | [] => ws
  | _ => accRev.reverse :: ws

/-- One pass splitter for lodash word boundaries; `accRev` is the pending
word in reverse, `cl` its class. -/
def goWords (accRev : List Char) (cl : CClass) : List Char → List (List Char)
  | [] => flushInto accRev []
  | c :: cs =>
    if isDigitC c then
      if cl = .dig then goWords (c :: accRev) .dig cs
      else flushInto accRev (goWords [c] .dig cs)
    else if isLowerC c then
      if cl = .low then goWords (c :: accRev) .low cs
      else if cl = .up then
        match accRev with
        | u :: urest => flushInto urest (goWords [c, u] .low cs)
        | [] => goWords [c] .low cs
      else flushInto accRev (goWords [c] .low cs)
    else if isUpperC c then
      if cl = .up then goWords (c :: accRev) .up cs
      else flushInto accRev (goWords [c] .up cs)
    else
      flushInto accRev (goWords [] .start cs)

/-- Lodash word splitting of a character list. -/
def lodashWords (cs : List Char) : List (List Char) :=
  goWords [] .start cs

/-- Lowercase every character of a word (lodash lowercases each word before
re-joining). -/
def lowWord (w : List Char) : List Char := w.map Char.toLower

/-- Uppercase the first character of a word (lodash `upperFirst`). -/
def capWord (w : List Char) : List Char :=
  match w with
  | [] => []
  | c :: rest => c.toUpper :: rest

/-- Re-join split words in camel case: first word lowercased, every later
word lowercased then capitalised. -/
def renderCamel : List (List Char) → List Char
  | [] => []
  | w :: ws => lowWord w ++ (ws.map (fun v => capWord (lowWord v))).flatten

/-- Lodash `_.camelCase` on a character list. -/
def camelCaseChars (cs : List Char) : List Char :=
  renderCamel (lodashWords cs)

/-- Translation of `XmlConverter.normalizeKey` (xml-converter.js lines 104
to 106): delegate to lodash camelCase. -/
def normalizeKey (s : String) : String :=
  String.mk (camelCaseChars s.data)

/-! ## ECMAScript string-to-number (the `isNaN` / `Number` pair used by
`XmlConverter.normalizeJsonResponse`)

`jsNumParse s = some n` models `!isNaN(s)` together with the value
`Number(s)`; `none` models NaN.  The grammar is the ECMAScript
StringNumericLiteral: optional surrounding whitespace; empty means zero; a
signed decimal literal with optional fraction and exponent, or a signed
Infinity, or an unsigned hex, octal or binary literal.  Values are kept as
exact rationals. -/

/-- A JS number that is not NaN: a finite value or one of the infinities. -/
inductive JsNum where
  | fin : ℚ → JsNum
  | pinf : JsNum
  | ninf : JsNum
deriving DecidableEq, Repr

/-- Embed a parsed number into the JS value model. -/
def jsNumToVal : JsNum → JSValue
  | .fin q => .rat q
  | .pinf => .posInf
  | .ninf => .negInf

/-- ECMAScript StrWhiteSpaceChar (the members that occur in practice). -/
def isWsC (c : Char) : Bool :=
  c = ' ' || c.toNat = 9 || c.toNat = 10 || c.toNat = 11 || c.toNat = 12 ||
  c.toNat = 13 || c.toNat = 160

/-- Numeric value of an ASCII digit. -/
def digitVal (c : Char) : ℕ := c.toNat - 48

/-- Value of a decimal digit run. -/
def natOfDigits (cs : List Char) : ℕ :=
  cs.foldl (fun acc c => 10 * acc + digitVal c) 0

/-- Hex digit test. -/
def isHexC (c : Char) : Bool :=
  isDigitC c || ('a' ≤ c && c ≤ 'f') || ('A' ≤ c && c ≤ 'F')

/-- Numeric value of a hex digit. -/
def hexVal (c : Char) : ℕ :=
  if isDigitC c then digitVal c
  else if 'a' ≤ c && c ≤ 'f' then c.toNat - 87
  else c.toNat - 55

/-- Value of a hex digit run. -/
def natOfHex (cs : List Char) : ℕ :=
  cs.foldl (fun acc c => 16 * acc + hexVal c) 0

/-- Value of a binary digit run. -/
def natOfBin (cs : List Char) : ℕ :=
  cs.foldl (fun acc c => 2 * acc + digitVal c) 0

/-- Value of an octal digit run. -/
def natOfOct (cs : List Char) : ℕ :=
  cs.foldl (fun acc c => 8 * acc + digitVal c) 0

/-- Exponent part of a decimal literal applied to a mantissa: the remaining
characters must be `e` or `E`, an optional sign, and a non-empty digit run;
an empty remainder keeps the mantissa. -/
def applyExponent (rest : List Char) (m : ℚ) : Option ℚ :=
  match rest with
  | [] => some m
  | e :: after =>
    if e = 'e' || e = 'E' then
      let signed : Bool × List Char :=
        match after with
        | '+' :: ds => (true, ds)
        | '-' :: ds => (false, ds)
        | ds => (true, ds)
      let ds := signed.2
      if ds.isEmpty || !(ds.all isDigitC) then none
      else if signed.1 then some (m * 10 ^ natOfDigits ds)
      else some (m / 10 ^ natOfDigits ds)
    else none

/-- Unsigned decimal literal `digits [. digits] [exp]` or `. digits [exp]`,
consuming the whole input. -/
def decLiteral (cs : List Char) : Option ℚ :=
  let ip := cs.takeWhile isDigitC
  let rest := cs.dropWhile isDigitC
  match rest with
  | '.' :: afterDot =>
    let fp := afterDot.takeWhile isDigitC
    let rest₂ := afterDot.dropWhile isDigitC
    if ip.isEmpty && fp.isEmpty then none
    else applyExponent rest₂
      ((natOfDigits ip : ℚ) + (natOfDigits fp : ℚ) / 10 ^ fp.length)
  | _ =>
    if ip.isEmpty then none
    else applyExponent rest (natOfDigits ip)

/-- Unsigned decimal literal or the literal `Infinity`. -/
def decOrInfinity (cs : List Char) : Option JsNum :=
  if cs = "Infinity".data then some .pinf
  else (decLiteral cs).map .fin

/-- Unsigned radix literal `0x`, `0o` or `0b` followed by a non-empty digit
run of the radix, consuming the whole input. -/
def radixLiteral (cs : List Char) : Option JsNum :=
  match cs with
  | c₀ :: m :: ds =>
    if c₀ = '0' && (m = 'x' || m = 'X') && !ds.isEmpty && ds.all isHexC then
      some (.fin (natOfHex ds))
    else if c₀ = '0' && (m = 'o' || m = 'O') && !ds.isEmpty &&
        ds.all (fun c => '0' ≤ c && c ≤ '7') then
      some (.fin (natOfOct ds))
    else if c₀ = '0' && (m = 'b' || m = 'B') && !ds.isEmpty &&
        ds.all (fun c => c = '0' || c = '1') then
      some (.fin (natOfBin ds))
    else none
  | _ => none

/-- Negation of a parsed number. -/
def jsnNegate : JsNum → JsNum
  | .fin q => .fin (-q)
  | .pinf => .ninf
  | .ninf => .pinf

/-- ECMAScript `Number(string)`; `none` is NaN.  Surrounding whitespace is
removed, the empty remainder is zero, a sign is only allowed on decimal and
Infinity literals. -/
def jsNumParse (s : String) : Option JsNum :=
  match ((s.data.dropWhile isWsC).reverse.dropWhile isWsC).reverse with
  | [] => some (.fin 0)
  | c :: rest =>
    if c = '+' then decOrInfinity rest
    else if c = '-' then (decOrInfinity rest).map jsnNegate
    else
      match radixLiteral (c :: rest) with
      | some n => some n
      | none => decOrInfinity (c :: rest)

/-! ## XmlConverter parse normalization
(src/promostandards-js/src/core/xml-converter.js lines 41 to 70) -/

mutual
/-- Translation of `XmlConverter.normalizeJsonResponse`: arrays map the
function over their items, objects normalize each key with lodash
camelCase and each field value with the leaf coercion rules, everything
else is returned unchanged.  Note that a plain string reaching this
function directly (for example as an array item) is returned unchanged:
the leaf coercions of the source run only inside the object field loop. -/
def normalizeJsonResponse : JSValue → JSValue
  | .arr items => .arr (normalizeList items)
  | .obj fields => .obj (normalizeFields fields)
  | other => other

/-- Array branch of `normalizeJsonResponse` (`data.map(...)`). -/
def normalizeList : List JSValue → List JSValue
  | [] => []
  | v :: rest => normalizeJsonResponse v :: normalizeList rest

/-- Object field loop of `normalizeJsonResponse`. -/
def normalizeFields : List (String × JSValue) → List (String × JSValue)
  | [] => []
  | (k, v) :: rest => (normalizeKey k, normalizeFieldValue v) :: normalizeFields rest

/-- Per-field value coercion, in source order: the empty string becomes
null; the exact strings true and false become booleans; a string not
rejected by `isNaN` becomes its number; objects and arrays recurse; every
other value is kept. -/
def normalizeFieldValue : JSValue → JSValue
  | .str s =>
    if s = "" then .null
    else if s = "true" then .bool true
    else if s = "false" then .bool false
    else
      match jsNumParse s with
      | some n => jsNumToVal n
      | none => .str s
  | .arr items => .arr (normalizeList items)
  | .obj fields => .obj (normalizeFields fields)
  | other => other
end

/-! ## XmlConverter build side
(src/promostandards-js/src/core/xml-converter.js lines 32 to 39 and 72 to
111), composed with a model of the xml2js builder the source delegates to. -/

/-- Translation of `XmlConverter.toXmlCase` (lines 108 to 111): uppercase
only the first character. -/
def toXmlCase (k : String) : String :=
  match k.data with
  | [] => ""
  | c :: rest => String.mk (c.toUpper :: rest)

mutual
/-- Translation of `XmlConverter.prepareJsonForXml` (lines 72 to 102):
arrays map the function over items, objects drop null and undefined
fields, PascalCase the remaining keys, stringify boolean fields, and
recurse into arrays and objects; other values pass through. -/
def prepareJsonForXml : JSValue → JSValue
  | .arr items => .arr (prepareList items)
  | .obj fields => .obj (prepareFields fields)
  | other => other

/-- Array branch of `prepareJsonForXml`. -/
def prepareList : List JSValue → List JSValue
  | [] => []
  | v :: rest => prepareJsonForXml v :: prepareList rest

/-- Object field loop of `prepareJsonForXml`. -/
def prepareFields : List (String × JSValue) → List (String × JSValue)
  | [] => []
  | (k, v) :: rest =>
    match v with
    | .null => prepareFields rest
    | .undefined => prepareFields rest
    | .arr items => (toXmlCase k, .arr (prepareList items)) :: prepareFields rest
    | .obj fs => (toXmlCase k, .obj (prepareFields fs)) :: prepareFields rest
    | .bool b => (toXmlCase k, .str (if b then "true" else "false")) :: prepareFields rest
    | other => (toXmlCase k, other) :: prepareFields rest
end

/-- Text escaping performed by the xml2js builder on element text. -/
def xmlEscape (s : String) : String :=
  String.join (s.data.map (fun c =>
    if c = '&' then "&amp;"
    else if c = '<' then "&lt;"
    else if c = '>' then "&gt;"
    else String.mk [c]))

mutual
/-- Modelled from the xml2js `Builder` the source instantiates with
`renderOpts.pretty = false`: an object renders as one element wrapping its
fields, an array renders as repeated sibling elements under the same tag
with no wrapper, a string renders as escaped text, null renders as an
empty element, booleans render as their literal words.  (Finite number
rendering uses the rational printer; no theorem below depends on it.) -/
def renderElement (name : String) : JSValue → String
  | .obj fields => "<" ++ name ++ ">" ++ renderFieldList fields ++ "</" ++ name ++ ">"
  | .arr items => renderSiblings name items
  | .str s => "<" ++ name ++ ">" ++ xmlEscape s ++ "</" ++ name ++ ">"
  | .null => "<" ++ name ++ "/>"
  | .undefined => "<" ++ name ++ "/>"
  | .bool b => "<" ++ name ++ ">" ++ (if b then "true" else "false") ++ "</" ++ name ++ ">"
  | .rat q => "<" ++ name ++ ">" ++ toString q ++ "</" ++ name ++ ">"
  | .posInf => "<" ++ name ++ ">Infinity</" ++ name ++ ">"
  | .negInf => "<" ++ name ++ ">-Infinity</" ++ name ++ ">"

/-- Sibling elements sharing one tag (array values have no wrapper tag). -/
def renderSiblings (name : String) : List JSValue → String
  | [] => ""
  | v :: rest => renderElement name v ++ renderSiblings name rest

/-- Consecutive child elements of an object. -/
def renderFieldList : List (String × JSValue) → String
  | [] => ""
  | (k, v) :: rest => renderElement k v ++ renderFieldList rest
end

/-- The XML declaration emitted by the builder configuration in the source
(xml-converter.js lines 13 to 17). -/
def xmlDecl : String := "<?xml version=\"1.0\" encoding=\"UTF-8\"?>"

/-- Translation of `XmlConverter.jsonToXml` (xml-converter.js lines 32 to
39): prepare the JSON mapping and hand one root object to the builder. -/
def jsonToXml (json : JSValue) (rootName : String) : String :=
  xmlDecl ++ renderElement rootName (prepareJsonForXml json)

/-! ## OneSourceClient version selection
(src/promostandards-js/src/core/onesource-client.js lines 184 to 208 and
333 to 345) -/

/-- An endpoint descriptor as produced by `normalizeEndpoints`. -/
structure EndpointDescriptor where
  version : String
  wsdl : String := ""
  endpoint : String := ""
  status : String := "active"
deriving DecidableEq, Repr

/-- JS strict inequality on two non-NaN numbers. -/
def jsnEqb (a b : JsNum) : Bool :=
  match a, b with
  | .fin q, .fin r => q = r
  | .pinf, .pinf => true
  | .ninf, .ninf => true
  | _, _ => false

/-- JS subtraction of two non-NaN, non-equal numbers (only the sign is ever
consumed; the equal-infinity cases are unreachable behind the strict
inequality guard and default to zero). -/
def jsnSub (a b : JsNum) : JsNum :=
  match a, b with
  | .fin q, .fin r => .fin (q - r)
  | .pinf, .fin _ => .pinf
  | .pinf, .ninf => .pinf
  | .fin _, .pinf => .ninf
  | .fin _, .ninf => .pinf
  | .ninf, .fin _ => .ninf
  | .ninf, .pinf => .ninf
  | .pinf, .pinf => .fin 0
  | .ninf, .ninf => .fin 0

/-- Component `i` of a split version: `parts[i] || 0` with `Number` applied
by `map(Number)` — a missing or non-numeric (NaN) or zero component all
yield zero, exactly as the or-default does. -/
def versionComponent (parts : List String) (i : ℕ) : JsNum :=
  match parts.get? i with
  | none => .fin 0
  | some s =>
    match jsNumParse s with
    | none => .fin 0
    | some n => if jsnEqb n (.fin 0) then .fin 0 else n

/-- JS `string.split(".")` on the character list: components between dot
separators, in order, with empty components kept. -/
def splitDot : List Char → List (List Char)
  | [] => [[]]
  | c :: cs =>
    if c = '.' then [] :: splitDot cs
    else
      match splitDot cs with
      | w :: ws => (c :: w) :: ws
      | [] => [[c]]

/-- The dot components of a version string. -/
def versionParts (s : String) : List String :=
  (splitDot s.data).map String.mk

/-- Loop of `compareVersions`, iterating `i` upward with explicit fuel
matching `Math.max` of the two lengths. -/
def cmpLoop (pa pb : List String) : ℕ → ℕ → JsNum
  | _, 0 => .fin 0
  | i, fuel + 1 =>
    let na := versionComponent pa i
    let nb := versionComponent pb i
    if jsnEqb na nb then cmpLoop pa pb (i + 1) fuel
    else jsnSub na nb

/-- Translation of `OneSourceClient.compareVersions` (lines 333 to 345):
zero when either argument is falsy, else split both on dots, map `Number`,
and return the difference of the first differing components (zero when all
components agree). -/
def compareVersions (a b : String) : JsNum :=
  if a.isEmpty || b.isEmpty then .fin 0
  else
    let pa := versionParts a
    let pb := versionParts b
    cmpLoop pa pb 0 (max pa.length pb.length)

/-- Whether a comparator result is non-positive, which is all the sort
consumes from it. -/
def jsnLeZero : JsNum → Bool
  | .fin q => q ≤ 0
  | .pinf => false
  | .ninf => true

/-- The descending-by-version order the source passes to `Array.sort`:
descriptor `x` may precede `y` when `compareVersions(y.version, x.version)`
is non-positive. -/
def versionSortLE (x y : EndpointDescriptor) : Bool :=
  jsnLeZero (compareVersions y.version x.version)

/-- Stable insertion of one element into an already sorted list: the new
element goes in front of the first element it may precede. -/
def jsSortInsert (le : α → α → Bool) (x : α) : List α → List α
  | [] => [x]
  | y :: ys => if le x y then x :: y :: ys else y :: jsSortInsert le x ys

/-- Stable sort by a boolean comparator.  The ECMAScript standard requires
`Array.prototype.sort` to be stable, and for a consistent comparator the
stable sorted permutation is unique, so any stable sorting algorithm models
the source call; insertion sort is used because it is the simplest one. -/
def jsSort (le : α → α → Bool) : List α → List α
  | [] => []
  | x :: xs => jsSortInsert le x (jsSort le xs)

/-- Translation of the unspecified-version branch of
`OneSourceClient.getServiceEndpoint` (lines 195 to 200):
`serviceEndpoints.sort((a, b) => compareVersions(b.version, a.version))[0]`. -/
def getLatestEndpoint (serviceEndpoints : List EndpointDescriptor) :
    Option EndpointDescriptor :=
  (jsSort versionSortLE serviceEndpoints).head?

/-- Translation of the enclosing guard of `getServiceEndpoint` for the
unspecified-version path (lines 174 to 200): an empty descriptor list is a
validation error, otherwise the latest descriptor is selected. -/
def getServiceEndpointNoVersion (serviceEndpoints : List EndpointDescriptor) :
    Except Unit EndpointDescriptor :=
  if serviceEndpoints.isEmpty then .error ()
  else
    match getLatestEndpoint serviceEndpoints with
    | some e => .ok e
    | none => .error ()

/-- Wellformedness of a dot-separated version: non-empty, with every
component a non-empty digit run (the shape the claims quantify over). -/
def dotVersionOk (v : String) : Bool :=
  !v.isEmpty && (versionParts v).all (fun s => !s.isEmpty && s.data.all isDigitC)

/-- Independent specification of the numeric reading of a version: its
component `i` as an integer, with missing trailing components read as
zero. -/
def natCompAt (v : String) (i : ℕ) : ℕ :=
  natOfDigits (((versionParts v).getD i "").data)

/-- Left-to-right lexicographic greater-or-equal on integer sequences,
comparing indices `i` to `i + fuel - 1`. -/
def lexGeAux (f g : ℕ → ℕ) : ℕ → ℕ → Bool
  | _, 0 => true
  | i, fuel + 1 =>
    if f i = g i then lexGeAux f g (i + 1) fuel else decide (g i < f i)

/-- Independent specification of the claim ordering: version `a` is
numerically at least version `b`, comparing dot components left-to-right as
integers with missing trailing components treated as zero. -/
def verGEb (a b : String) : Bool :=
  lexGeAux (natCompAt a) (natCompAt b) 0
    (max (versionParts a).length (versionParts b).length)

/-! ## WSDLProvider single-flight resolution
(src/promostandards-js/src/core/wsdl-provider.js lines 42 to 96)

The JS event loop runs each caller synchronously from the entry of
`resolve()` up to its first `await`; the checks of `_resolvedWsdl`,
`staticWsdl` and `_resolving` and the assignment of `_resolving` all happen
inside that atomic prefix.  The model therefore makes one `begin` event per
caller (that atomic prefix) and one `complete` event per finished upstream
attempt. -/

/-- The value `resolve()` produces. -/
structure ResolvedData where
  wsdl : String
  endpoint : Option String := none
  version : Option String := none
deriving DecidableEq, Repr

/-- The mutable fields of a `WSDLProvider` instance that `resolve` touches,
plus instrumentation: `nextOp` numbers resolution promises and
`upstreamStarts` counts calls into `_doResolve` (each of which performs
exactly one upstream attempt). -/
structure ProviderState where
  staticWsdl : Option String := none
  resolvedWsdl : Option String := none
  resolvedEndpoint : Option String := none
  resolvedVersion : Option String := none
  resolving : Option ℕ := none
  nextOp : ℕ := 0
  upstreamStarts : ℕ := 0
deriving DecidableEq, Repr

/-- What a caller of `resolve()` gets from its synchronous prefix: either a
value returned immediately (cache hit or static mode) or the identity of
the in-flight resolution promise it will await. -/
inductive ResolveObs where
  | immediate : ResolvedData → ResolveObs
  | awaitOp : ℕ → ResolveObs
deriving DecidableEq, Repr

/-- Translation of the synchronous prefix of `WSDLProvider.resolve` (lines
42 to 67): return the cached result when `_resolvedWsdl` is truthy; resolve
instantly in static mode; join an in-flight resolution when `_resolving` is
set; otherwise store a fresh promise in `_resolving`, starting exactly one
upstream attempt. -/
def beginResolve (s : ProviderState) : ProviderState × ResolveObs :=
  if strTruthy s.resolvedWsdl then
    (s, .immediate ⟨s.resolvedWsdl.getD "", s.resolvedEndpoint, s.resolvedVersion⟩)
  else if strTruthy s.staticWsdl then
    ({ s with resolvedWsdl := s.staticWsdl },
     .immediate ⟨s.staticWsdl.getD "", none, none⟩)
  else
    match s.resolving with
    | some op => (s, .awaitOp op)
    | none =>
      ({ s with resolving := some s.nextOp, nextOp := s.nextOp + 1,
                upstreamStarts := s.upstreamStarts + 1 },
       .awaitOp s.nextOp)

/-- Completion of the in-flight resolution promise `op` (the tail of
`resolve` together with `_doResolve`, lines 69 to 96): on success the
resolved fields are stored; in every case the in-flight slot is cleared so
a later call may retry after a failure. -/
def completeResolve (s : ProviderState) (op : ℕ) (outcome : Option ResolvedData) :
    ProviderState :=
  if s.resolving = some op then
    match outcome with
    | some r => { s with resolvedWsdl := some r.wsdl,
                         resolvedEndpoint := r.endpoint,
                         resolvedVersion := r.version,
                         resolving := none }
    | none => { s with resolving := none }
  else s

/-- An event of the interleaving semantics. -/
inductive PEvent where
  | begin : PEvent
  | complete : ℕ → Option ResolvedData → PEvent

/-- Run a trace of events, collecting each begin event's observation in
order. -/
def runTrace (s : ProviderState) : List PEvent → ProviderState × List ResolveObs
  | [] => (s, [])
  | .begin :: rest =>
    let (s₂, o) := beginResolve s
    let (s₃, os) := runTrace s₂ rest
    (s₃, o :: os)
  | .complete op r :: rest => runTrace (completeResolve s op r) rest

/-- A provider configured for upstream resolution with nothing resolved and
nothing in flight. -/
def initialProvider : ProviderState := {}

/-! ## Word forms for the casing claims -/

/-- Uppercase every character of a word. -/
def upWord (w : List Char) : List Char := w.map Char.toUpper

/-- A word for the casing claims: a non-empty run of lowercase ASCII
letters. -/
def isLowerWord (w : List Char) : Bool := !w.isEmpty && w.all isLowerC

/-- PascalCase rendering of a word list: each word capitalised, all
concatenated. -/
def pascalRender (ws : List (List Char)) : List Char :=
  (ws.map capWord).flatten

/-- snake_case rendering of a word list: words joined by single
underscores. -/
def snakeRender : List (List Char) → List Char
  | [] => []
  | [w] => w
  | w :: w₂ :: rest => w ++ '_' :: snakeRender (w₂ :: rest)

/-- SCREAMING_SNAKE rendering of a word list: the snake rendering of the
uppercased words. -/
def screamRender (ws : List (List Char)) : List Char :=
  snakeRender (ws.map upWord)

/-- A word consisting only of uppercase ASCII letters, non-empty. -/
def isUpperWord (w : List Char) : Bool := !w.isEmpty && w.all isUpperC

/-- The lowerCamelCase key a word list should normalize to. -/
def lowerCamelRender (ws : List (List Char)) : List Char :=
  match ws with
  | [] => []
  | w :: rest => w ++ (rest.map capWord).flatten

/-- No two adjacent words are both single letters (the side condition under
which the three casings agree after normalization). -/
def noAdjacentSingles : List (List Char) → Bool
  | [] => true
  | [_] => true
  | w :: w₂ :: rest => !(w.length == 1 && w₂.length == 1) && noAdjacentSingles (w₂ :: rest)

/-! ## Helper lemmas -/

theorem lookupKey_objSet_self (fs : List (String × JSValue)) (k : String) (v : JSValue) :
    lookupKey (objSet fs k v) k = some v := by
  induction fs with
  | nil => simp [objSet, lookupKey]
  | cons kv rest ih =>
    obtain ⟨k₂, w⟩ := kv
    by_cases h : k₂ = k
    · simp [objSet, h, lookupKey]
    · simp [objSet, h, lookupKey, ih]

theorem lookupKey_objSet_ne (fs : List (String × JSValue)) (k : String) (v : JSValue)
    (k' : String) (hne : k' ≠ k) :
    lookupKey (objSet fs k v) k' = lookupKey fs k' := by
  induction fs with
  | nil =>
    simp only [objSet, lookupKey]
    rw [if_neg (Ne.symm hne)]
  | cons kv rest ih =>
    obtain ⟨k₂, w⟩ := kv
    simp only [objSet]
    by_cases h : k₂ = k
    · rw [if_pos h]
      have hk₂ : k₂ ≠ k' := by
        rw [h]
        exact Ne.symm hne
      simp only [lookupKey]
      rw [if_neg hk₂, if_neg hk₂]
    · rw [if_neg h]
      simp only [lookupKey]
      by_cases h₂ : k₂ = k'
      · rw [if_pos h₂, if_pos h₂]
      · rw [if_neg h₂, if_neg h₂, ih]

theorem lookupKey_objMerge_not_mem (extra base : List (String × JSValue)) (k : String)
    (h : ∀ kv ∈ extra, kv.1 ≠ k) :
    lookupKey (objMerge base extra) k = lookupKey base k := by
  induction extra generalizing base with
  | nil => simp [objMerge]
  | cons kv rest ih =>
    obtain ⟨k₁, v₁⟩ := kv
    have step : objMerge base ((k₁, v₁) :: rest) = objMerge (objSet base k₁ v₁) rest := by
      simp [objMerge]
    rw [step, ih _ (fun kv hkv => h kv (List.mem_cons_of_mem _ hkv)),
        lookupKey_objSet_ne]
    intro hk
    exact h (k₁, v₁) (List.mem_cons_self _ _) (by simpa using hk.symm)

theorem lookupKey_objMerge_mem (extra base : List (String × JSValue)) (k : String)
    (v : JSValue) (hnd : (extra.map Prod.fst).Nodup) (hv : lookupKey extra k = some v) :
    lookupKey (objMerge base extra) k = some v := by
  induction extra generalizing base with
  | nil => simp [lookupKey] at hv
  | cons kv rest ih =>
    obtain ⟨k₁, v₁⟩ := kv
    have step : objMerge base ((k₁, v₁) :: rest) = objMerge (objSet base k₁ v₁) rest := by
      simp [objMerge]
    rw [step]
    simp only [List.map_cons, List.nodup_cons] at hnd
    by_cases h : k₁ = k
    · subst h
      simp only [lookupKey, if_pos] at hv
      rw [lookupKey_objMerge_not_mem]
      · rw [lookupKey_objSet_self, hv]
      · intro kv hkv hk
        exact hnd.1 (by
          rw [← hk]
          exact List.mem_map_of_mem Prod.fst hkv)
    · simp only [lookupKey, if_neg h] at hv
      exact ih _ hnd.2 hv

theorem jsTruthy_jsOr (a b : JSValue) :
    jsTruthy (jsOr a b) = (jsTruthy a || jsTruthy b) := by
  by_cases h : jsTruthy a <;> simp [jsOr, h]

/-! ## Claim theorems -/

/-- C8: an invoker response-cache lookup returns a stored entry as a hit
exactly when `now - storedAtEpochMillis <= ttl`; an entry found older than
the TTL is deleted from the slot during that lookup and reported as a
miss. -/
theorem c8_cache_hit_iff_fresh :
    (∀ (e : CacheEntry) (now ttl : ℤ), now - e.timestamp ≤ ttl →
      getFromCache (some e) now ttl = (some e.data, some e)) ∧
    (∀ (e : CacheEntry) (now ttl : ℤ), ttl < now - e.timestamp →
      getFromCache (some e) now ttl = (none, none)) ∧
    (∀ (e : CacheEntry) (now ttl : ℤ),
      (getFromCache (some e) now ttl).1 = some e.data ↔ now - e.timestamp ≤ ttl) := by
  refine ⟨fun e now ttl h => ?_, fun e now ttl h => ?_, fun e now ttl => ?_⟩
  · simp [getFromCache, not_lt.mpr h]
  · simp [getFromCache, h]
  · by_cases h : ttl < now - e.timestamp
    · simp [getFromCache, h, le_of_lt, not_le.mpr h]
    · simp [getFromCache, h, not_lt.mp h]

/-- Witness for C8 at a concrete entry: fresh at age exactly the TTL,
evicted one millisecond later. -/
theorem c8_cache_hit_iff_fresh_witness :
    getFromCache (some ⟨.str "v", 100⟩) 400 300 = (some (.str "v"), some ⟨.str "v", 100⟩) ∧
    getFromCache (some ⟨.str "v", 100⟩) 401 300 = (none, none) :=
  ⟨c8_cache_hit_iff_fresh.1 ⟨.str "v", 100⟩ 400 300 (by decide),
   c8_cache_hit_iff_fresh.2.1 ⟨.str "v", 100⟩ 401 300 (by decide)⟩

/-- C10: `injectAuth` on a payload that is null or not an object returns
exactly the auth header alone, and on an array payload returns a new array
holding the auth header followed by the original elements in order; in this
pure model the inputs are values, so the original payload is untouched by
construction — the array clause states the order-preserving content the
mutation claim reduces to. -/
theorem c10_inject_non_object_and_array :
    ∀ (a : PromoStandardsAuth) (ws : Option String) (header : List (String × JSValue)),
      buildAuthHeader a ws = .ok header →
      injectAuth a .null ws = .ok (.obj header) ∧
      injectAuth a .undefined ws = .ok (.obj header) ∧
      (∀ s, injectAuth a (.str s) ws = .ok (.obj header)) ∧
      (∀ b, injectAuth a (.bool b) ws = .ok (.obj header)) ∧
      (∀ q, injectAuth a (.rat q) ws = .ok (.obj header)) ∧
      injectAuth a .posInf ws = .ok (.obj header) ∧
      injectAuth a .negInf ws = .ok (.obj header) ∧
      (∀ items, injectAuth a (.arr items) ws = .ok (.arr (.obj header :: items))) := by
  intro a ws header h
  refine ⟨?_, ?_, fun s => ?_, fun b => ?_, fun q => ?_, ?_, ?_, fun items => ?_⟩ <;>
    simp [injectAuth, h]

/-- Witness for C10 at a concrete auth instance and payloads. -/
theorem c10_inject_non_object_and_array_witness :
    injectAuth ⟨some "me", some "p", some "1.0.0", true⟩ .null none =
      .ok (.obj [("wsVersion", .str "1.0.0"), ("id", .str "me"), ("password", .str "p")]) ∧
    injectAuth ⟨some "me", some "p", some "1.0.0", true⟩ (.arr [.str "x"]) none =
      .ok (.arr [.obj [("wsVersion", .str "1.0.0"), ("id", .str "me"), ("password", .str "p")],
                 .str "x"]) :=
  ⟨(c10_inject_non_object_and_array ⟨some "me", some "p", some "1.0.0", true⟩ none
      [("wsVersion", .str "1.0.0"), ("id", .str "me"), ("password", .str "p")] rfl).1,
   (c10_inject_non_object_and_array ⟨some "me", some "p", some "1.0.0", true⟩ none
      [("wsVersion", .str "1.0.0"), ("id", .str "me"), ("password", .str "p")] rfl).2.2.2.2.2.2.2
      [.str "x"]⟩

/-- C9 counterexample: the claim is false as stated — an identifier
supplied through the `username` synonym is accepted at 65 characters, so
credentials construction does not reject every identifier longer than 64.
The constructed instance really carries the 65-character identifier. -/
theorem c9_counterexample :
    (String.mk (List.replicate 65 'u')).length = 65 ∧
    validateCredentials { username := some (String.mk (List.replicate 65 'u')) } = .ok () ∧
    mkAuth { username := some (String.mk (List.replicate 65 'u')) } =
      .ok ⟨some (String.mk (List.replicate 65 'u')), none, none, true⟩ := by
  refine ⟨?_, rfl, rfl⟩
  simp [String.length]

/-- C9 amended: construction rejects credentials whose `id` and `username`
are both absent or empty regardless of the secret; rejects an `id` longer
than 64 characters and a secret longer than 64 characters; accepts an `id`
of up to (hence exactly) 64 characters with an acceptable secret; and does
not length-check an identifier supplied through `username`. -/
theorem c9_credential_validation :
    (∀ c : Credentials, strTruthy c.id = false → strTruthy c.username = false →
      validateCredentials c = .error .missingId) ∧
    (∀ c : Credentials, strTruthy c.id = true → 64 < (c.id.getD "").length →
      validateCredentials c = .error .idTooLong) ∧
    (∀ c : Credentials, strTruthy c.id = true → (c.id.getD "").length ≤ 64 →
      strTruthy c.password = true → 64 < (c.password.getD "").length →
      validateCredentials c = .error .passwordTooLong) ∧
    (∀ c : Credentials, strTruthy c.id = true → (c.id.getD "").length ≤ 64 →
      strTruthy c.password = false → validateCredentials c = .ok ()) ∧
    (∀ c : Credentials, strTruthy c.id = false → strTruthy c.username = true →
      strTruthy c.password = false → validateCredentials c = .ok ()) := by
  refine ⟨fun c h₁ h₂ => ?_, fun c h₁ h₂ => ?_, fun c h₁ h₂ h₃ h₄ => ?_,
         fun c h₁ h₂ h₃ => ?_, fun c h₁ h₂ h₃ => ?_⟩
  · simp [validateCredentials, h₁, h₂, Bind.bind, Except.bind, throw, throwThe,
          MonadExceptOf.throw]
  · simp [validateCredentials, h₁, h₂, Bind.bind, Except.bind, throw, throwThe,
          MonadExceptOf.throw, pure, Except.pure]
  · simp [validateCredentials, h₁, not_lt.mpr h₂, h₃, h₄, Bind.bind, Except.bind,
          throw, throwThe, MonadExceptOf.throw, pure, Except.pure]
  · simp [validateCredentials, h₁, not_lt.mpr h₂, h₃, Bind.bind, Except.bind,
          throw, throwThe, MonadExceptOf.throw, pure, Except.pure]
  · simp [validateCredentials, h₁, h₂, h₃, Bind.bind, Except.bind,
          throw, throwThe, MonadExceptOf.throw, pure, Except.pure]

/-- Witness for C9 amended: a 64-character id is accepted, a 65-character
id is rejected, and missing identifiers are rejected with a secret
present. -/
theorem c9_credential_validation_witness :
    validateCredentials { id := some (String.mk (List.replicate 64 'u')) } = .ok () ∧
    validateCredentials { id := some (String.mk (List.replicate 65 'u')) } =
      .error .idTooLong ∧
    validateCredentials { password := some "p" } = .error .missingId :=
  ⟨c9_credential_validation.2.2.2.1 { id := some (String.mk (List.replicate 64 'u')) }
      (by decide) (by simp [String.length]) rfl,
   c9_credential_validation.2.1 { id := some (String.mk (List.replicate 65 'u')) }
      (by decide) (by simp [String.length]),
   c9_credential_validation.1 { password := some "p" } rfl rfl⟩

/-- C1 counterexample: the claim is false as stated — merging the auth
header into a payload that already carries the auth field `id` keeps the
payload value, not the auth value, because the source spreads the payload
after the header. -/
theorem c1_counterexample :
    injectAuth ⟨some "me", some "p", some "1.0.0", true⟩
        (.obj [("id", .str "evil")]) none =
      .ok (.obj [("wsVersion", .str "1.0.0"), ("id", .str "evil"),
                 ("password", .str "p")]) ∧
    (JSValue.str "evil" ≠ JSValue.str "me") := by
  refine ⟨rfl, ?_⟩
  simp

/-- C1 amended: in the `ServiceInvoker` merge of the auth header into the
payload, a field present in both keeps the user payload value — payload
fields override auth fields, and auth fields only fill in keys the payload
does not carry. -/
theorem c1_payload_overrides_auth :
    ∀ (a : PromoStandardsAuth) (ws : Option String)
      (header fields : List (String × JSValue)) (k : String) (v : JSValue),
      buildAuthHeader a ws = .ok header →
      (fields.map Prod.fst).Nodup →
      lookupKey fields k = some v →
      injectAuth a (.obj fields) ws = .ok (.obj (objMerge header fields)) ∧
      lookupKey (objMerge header fields) k = some v := by
  intro a ws header fields k v h hnd hv
  constructor
  · simp [injectAuth, h]
  · exact lookupKey_objMerge_mem fields header k v hnd hv

/-- Witness for C1 amended at the counterexample instance: the payload id
survives the merge. -/
theorem c1_payload_overrides_auth_witness :
    injectAuth ⟨some "me", some "p", some "1.0.0", true⟩
        (.obj [("id", .str "evil")]) none =
      .ok (.obj (objMerge
        [("wsVersion", .str "1.0.0"), ("id", .str "me"), ("password", .str "p")]
        [("id", .str "evil")])) ∧
    lookupKey (objMerge
        [("wsVersion", .str "1.0.0"), ("id", .str "me"), ("password", .str "p")]
        [("id", .str "evil")]) "id" = some (.str "evil") :=
  c1_payload_overrides_auth ⟨some "me", some "p", some "1.0.0", true⟩ none
    [("wsVersion", .str "1.0.0"), ("id", .str "me"), ("password", .str "p")]
    [("id", .str "evil")] "id" (.str "evil") rfl (by simp) rfl

/-- C2 counterexample: the claim is false as stated — in `c2Doc` the Body
has a child `soapenv:Fault`, whose name does contain the word fault
case-insensitively, yet fault extraction yields undefined (not a non-null
fault object), because the source only consults three exact key
spellings. -/
theorem c2_counterexample :
    strHasRun (lowerStr "soapenv:Fault") "fault" = true ∧
    extractSoapFault c2Doc = .undefined ∧
    jsTruthy (extractSoapFault c2Doc) = false := by
  refine ⟨by decide, rfl, rfl⟩

/-- C2 amended: for a parsed response whose envelope sits under one of the
four exact envelope spellings and whose body sits under one of the four
exact body spellings, fault extraction returns precisely the first truthy
value among the exact keys `soap:Fault`, `SOAP-ENV:Fault` and `Fault` of
the body — it is truthy exactly when one of those three keys holds a truthy
value; fault children under any other prefix spelling are not found. -/
theorem c2_fault_exact_keys :
    ∀ (ek bk : String) (bodyFields : List (String × JSValue)),
      ek ∈ (["soap:Envelope", "SOAP-ENV:Envelope", "soapenv:Envelope",
             "Envelope"] : List String) →
      bk ∈ (["soap:Body", "SOAP-ENV:Body", "soapenv:Body", "Body"] : List String) →
      extractSoapFault (.obj [(ek, .obj [(bk, .obj bodyFields)])]) =
        jsOr (jsOptGet (.obj bodyFields) "soap:Fault")
          (jsOr (jsOptGet (.obj bodyFields) "SOAP-ENV:Fault")
            (jsOptGet (.obj bodyFields) "Fault")) ∧
      jsTruthy (extractSoapFault (.obj [(ek, .obj [(bk, .obj bodyFields)])])) =
        (jsTruthy (jsOptGet (.obj bodyFields) "soap:Fault") ||
         jsTruthy (jsOptGet (.obj bodyFields) "SOAP-ENV:Fault") ||
         jsTruthy (jsOptGet (.obj bodyFields) "Fault")) := by
  intro ek bk bodyFields hek hbk
  have main : extractSoapFault (.obj [(ek, .obj [(bk, .obj bodyFields)])]) =
      jsOr (jsOptGet (.obj bodyFields) "soap:Fault")
        (jsOr (jsOptGet (.obj bodyFields) "SOAP-ENV:Fault")
          (jsOptGet (.obj bodyFields) "Fault")) := by
    fin_cases hek <;> fin_cases hbk <;> rfl
  refine ⟨main, ?_⟩
  rw [main, jsTruthy_jsOr, jsTruthy_jsOr, Bool.or_assoc]

/-- Witness for C2 amended: a fault stored under the exact key `Fault`
inside a `soapenv:` envelope and body is found and truthy. -/
theorem c2_fault_exact_keys_witness :
    extractSoapFault (.obj [("soapenv:Envelope", .obj [("soapenv:Body", .obj
        [("Fault", .obj [("faultstring", .str "boom")])])])]) =
      jsOr (jsOptGet (.obj [("Fault", .obj [("faultstring", .str "boom")])]) "soap:Fault")
        (jsOr (jsOptGet (.obj [("Fault", .obj [("faultstring", .str "boom")])])
            "SOAP-ENV:Fault")
          (jsOptGet (.obj [("Fault", .obj [("faultstring", .str "boom")])]) "Fault")) ∧
    jsTruthy (extractSoapFault (.obj [("soapenv:Envelope", .obj [("soapenv:Body", .obj
        [("Fault", .obj [("faultstring", .str "boom")])])])])) =
      (jsTruthy (jsOptGet (.obj [("Fault", .obj [("faultstring", .str "boom")])])
          "soap:Fault") ||
       jsTruthy (jsOptGet (.obj [("Fault", .obj [("faultstring", .str "boom")])])
          "SOAP-ENV:Fault") ||
       jsTruthy (jsOptGet (.obj [("Fault", .obj [("faultstring", .str "boom")])])
          "Fault")) :=
  c2_fault_exact_keys "soapenv:Envelope" "soapenv:Body"
    [("Fault", .obj [("faultstring", .str "boom")])]
    (by simp) (by simp)

theorem runTrace_append (s : ProviderState) (t₁ t₂ : List PEvent) :
    runTrace s (t₁ ++ t₂) =
      ((runTrace (runTrace s t₁).1 t₂).1,
       (runTrace s t₁).2 ++ (runTrace (runTrace s t₁).1 t₂).2) := by
  induction t₁ generalizing s with
  | nil => simp [runTrace]
  | cons e rest ih =>
    cases e with
    | begin => simp [runTrace, ih]
    | complete op r => simp [runTrace, ih]

theorem beginResolve_steady :
    beginResolve { resolving := some 0, nextOp := 1, upstreamStarts := 1 } =
      ({ resolving := some 0, nextOp := 1, upstreamStarts := 1 }, .awaitOp 0) := rfl

theorem runTrace_steady (m : ℕ) :
    runTrace { resolving := some 0, nextOp := 1, upstreamStarts := 1 }
        (List.replicate m .begin) =
      ({ resolving := some 0, nextOp := 1, upstreamStarts := 1 },
       List.replicate m (.awaitOp 0)) := by
  induction m with
  | zero => simp [runTrace]
  | succ m ih => simp [List.replicate_succ, runTrace, beginResolve_steady, ih]

/-- C7: against an initially unresolved, non-static provider, any number
`n ≥ 1` of concurrent `resolve()` entries triggers exactly one upstream
resolution start, every caller attaches to that same single in-flight
promise (promise 0), a begin event never starts an upstream attempt while
one is in flight, and the one completion of that promise delivers the one
resolved outcome to the provider for everybody. -/
theorem c7_single_flight :
    (∀ n : ℕ, 1 ≤ n →
      runTrace initialProvider (List.replicate n .begin) =
        ({ resolving := some 0, nextOp := 1, upstreamStarts := 1 },
         List.replicate n (.awaitOp 0))) ∧
    (∀ s : ProviderState, s.resolving.isSome = true →
      (beginResolve s).1.upstreamStarts = s.upstreamStarts) ∧
    (∀ (n : ℕ) (r : ResolvedData), 1 ≤ n →
      runTrace initialProvider (List.replicate n .begin ++ [.complete 0 (some r)]) =
        ({ resolvedWsdl := some r.wsdl, resolvedEndpoint := r.endpoint,
           resolvedVersion := r.version, resolving := none, nextOp := 1,
           upstreamStarts := 1 },
         List.replicate n (.awaitOp 0))) := by
  have hfirst : ∀ n : ℕ, 1 ≤ n →
      runTrace initialProvider (List.replicate n .begin) =
        ({ resolving := some 0, nextOp := 1, upstreamStarts := 1 },
         List.replicate n (.awaitOp 0)) := by
    intro n hn
    obtain ⟨m, rfl⟩ := Nat.exists_eq_add_of_le hn
    have hb : beginResolve initialProvider =
        ({ resolving := some 0, nextOp := 1, upstreamStarts := 1 }, .awaitOp 0) := rfl
    simp [List.replicate_succ, runTrace, hb, runTrace_steady, Nat.add_comm 1 m]
  refine ⟨hfirst, fun s hs => ?_, fun n r hn => ?_⟩
  · obtain ⟨op, hop⟩ := Option.isSome_iff_exists.mp hs
    by_cases h₁ : strTruthy s.resolvedWsdl
    · simp [beginResolve, h₁]
    · by_cases h₂ : strTruthy s.staticWsdl
      · simp [beginResolve, h₁, h₂]
      · simp [beginResolve, h₁, h₂, hop]
  · rw [runTrace_append, hfirst n hn]
    simp [runTrace, completeResolve]

/-- Witness for C7 at three concurrent callers and a concrete resolved
endpoint. -/
theorem c7_single_flight_witness :
    runTrace initialProvider (List.replicate 3 .begin) =
      ({ resolving := some 0, nextOp := 1, upstreamStarts := 1 },
       List.replicate 3 (.awaitOp 0)) ∧
    runTrace initialProvider
        (List.replicate 3 .begin ++
         [.complete 0 (some ⟨"https://w", some "https://e", some "2.0.0"⟩)]) =
      ({ resolvedWsdl := some "https://w", resolvedEndpoint := some "https://e",
         resolvedVersion := some "2.0.0", resolving := none, nextOp := 1,
         upstreamStarts := 1 },
       List.replicate 3 (.awaitOp 0)) :=
  ⟨c7_single_flight.1 3 (by decide),
   c7_single_flight.2.2 3 ⟨"https://w", some "https://e", some "2.0.0"⟩ (by decide)⟩

/-- C3 counterexample: the claim is false as stated — the leaf text `5`
parses fully as a number, yet when it occurs as an element of a sequence
(repeated XML siblings) normalization leaves it a string, because the
source applies leaf coercion only inside the object field loop. -/
theorem c3_counterexample :
    jsNumParse "5" = some (.fin 5) ∧
    normalizeJsonResponse (.obj [("List", .arr [.str "5", .str "6"])]) =
      .obj [("list", .arr [.str "5", .str "6"])] := by
  exact ⟨by decide, rfl⟩

/-- C3 amended: for leaf text occurring as an object field, normalization
maps the empty string to null, the exact strings true and false to
booleans, a string accepted by the host string-to-number grammar to its
number, and leaves every other string unchanged (no partial conversion);
leaf strings that are elements of a sequence are outside the coercion and
stay unchanged.  The end-to-end sample of the specification is included. -/
theorem c3_leaf_normalization :
    normalizeFieldValue (.str "") = .null ∧
    normalizeFieldValue (.str "true") = .bool true ∧
    normalizeFieldValue (.str "false") = .bool false ∧
    (∀ (s : String) (n : JsNum), s ≠ "" → jsNumParse s = some n →
      normalizeFieldValue (.str s) = jsNumToVal n) ∧
    (∀ s : String, s ≠ "true" → s ≠ "false" → jsNumParse s = none →
      normalizeFieldValue (.str s) = .str s) ∧
    (∀ (k : String) (v : JSValue) (rest : List (String × JSValue)),
      normalizeFields ((k, v) :: rest) =
        (normalizeKey k, normalizeFieldValue v) :: normalizeFields rest) ∧
    (∀ s : String, normalizeJsonResponse (.str s) = .str s) ∧
    normalizeJsonResponse (.obj [("Response", .obj
        [("ProductID", .str "42"), ("InStock", .str "true"), ("Note", .str "")])]) =
      .obj [("response", .obj
        [("productId", .rat 42), ("inStock", .bool true), ("note", .null)])] := by
  refine ⟨rfl, rfl, rfl, ?_, ?_, fun k v rest => rfl, fun s => rfl, rfl⟩
  · intro s n hs hn
    have ht : s ≠ "true" := by
      intro h
      rw [h, show jsNumParse "true" = none from by decide] at hn
      cases hn
    have hf : s ≠ "false" := by
      intro h
      rw [h, show jsNumParse "false" = none from by decide] at hn
      cases hn
    simp [normalizeFieldValue, hs, ht, hf, hn]
  · intro s ht hf hn
    have hs : s ≠ "" := by
      intro h
      rw [h, show jsNumParse "" = some (.fin 0) from by decide] at hn
      cases hn
    simp [normalizeFieldValue, hs, ht, hf, hn]

/-- Witness for C3 amended: a fully numeric leaf becomes its number, a
partially numeric leaf stays the exact original string. -/
theorem c3_leaf_normalization_witness :
    normalizeFieldValue (.str "42") = jsNumToVal (.fin 42) ∧
    normalizeFieldValue (.str "12abc") = .str "12abc" :=
  ⟨c3_leaf_normalization.2.2.2.1 "42" (.fin 42) (by decide) (by decide),
   c3_leaf_normalization.2.2.2.2.1 "12abc" (by decide) (by decide) (by decide)⟩

theorem renderSiblings_eq_foldr (name : String) (items : List JSValue) :
    renderSiblings name items = (items.map (renderElement name)).foldr (· ++ ·) "" := by
  induction items with
  | nil => rfl
  | cons v rest ih => simp [renderSiblings, ih]

/-- C5: on the build side, keys are PascalCased by uppercasing only the
first character, null and missing (undefined) values produce no output
element, boolean scalars render as the literal strings true and false, and
a sequence value renders as its elements rendered as sibling elements
under the shared tag with no wrapping array tag; building the sample
mapping as root `Item` yields exactly the declaration followed by
`<Item><ProductId>ABC</ProductId><Active>true</Active><Tags>x</Tags><Tags>y</Tags></Item>`. -/
theorem c5_build_side :
    (∀ (c : Char) (rest : List Char),
      toXmlCase (String.mk (c :: rest)) = String.mk (c.toUpper :: rest)) ∧
    (∀ (k : String) (rest : List (String × JSValue)),
      prepareFields ((k, .null) :: rest) = prepareFields rest) ∧
    (∀ (k : String) (rest : List (String × JSValue)),
      prepareFields ((k, .undefined) :: rest) = prepareFields rest) ∧
    (∀ (k : String) (b : Bool) (rest : List (String × JSValue)),
      prepareFields ((k, .bool b) :: rest) =
        (toXmlCase k, .str (if b then "true" else "false")) :: prepareFields rest) ∧
    (∀ (k : String) (items : List JSValue) (rest : List (String × JSValue)),
      prepareFields ((k, .arr items) :: rest) =
        (toXmlCase k, .arr (prepareList items)) :: prepareFields rest) ∧
    (∀ (name : String) (items : List JSValue),
      renderElement name (.arr items) =
        (items.map (renderElement name)).foldr (· ++ ·) "") ∧
    jsonToXml (.obj [("productId", .str "ABC"), ("active", .bool true),
        ("tags", .arr [.str "x", .str "y"])]) "Item" =
      xmlDecl ++
        "<Item><ProductId>ABC</ProductId><Active>true</Active><Tags>x</Tags><Tags>y</Tags></Item>" := by
  refine ⟨fun c rest => rfl, fun k rest => rfl, fun k rest => rfl,
         fun k b rest => rfl, fun k items rest => rfl,
         fun name items => ?_, rfl⟩
  exact renderSiblings_eq_foldr name items

theorem isDigitC_toNat {c : Char} (h : isDigitC c = true) :
    48 ≤ c.toNat ∧ c.toNat ≤ 57 := by
  simpa [isDigitC] using h

theorem ne_char_of_toNat {c d : Char} (h : c.toNat ≠ d.toNat) : c ≠ d :=
  fun he => h (he ▸ rfl)

theorem isWsC_eq_false_of_digit {c : Char} (h : isDigitC c = true) :
    isWsC c = false := by
  obtain ⟨h1, h2⟩ := isDigitC_toNat h
  have hsp : c ≠ ' ' := ne_char_of_toNat (by intro he; rw [he] at h1; revert h1; decide)
  simp [isWsC, hsp]
  omega

theorem dropWhile_isWsC_of_digits (cs : List Char)
    (h : ∀ c ∈ cs, isDigitC c = true) : cs.dropWhile isWsC = cs := by
  cases cs with
  | nil => rfl
  | cons c rest =>
    rw [List.dropWhile_cons, isWsC_eq_false_of_digit (h c (List.mem_cons_self c rest))]
    simp

theorem jsNumParse_digits (cs : List Char) (h1 : cs ≠ [])
    (h2 : ∀ c ∈ cs, isDigitC c = true) :
    jsNumParse (String.mk cs) = some (.fin (natOfDigits cs)) := by
  have hrev : ∀ c ∈ cs.reverse, isDigitC c = true :=
    fun c hc => h2 c (List.mem_reverse.mp hc)
  have escrut : (((String.mk cs).data.dropWhile isWsC).reverse.dropWhile isWsC).reverse
      = cs := by
    show ((cs.dropWhile isWsC).reverse.dropWhile isWsC).reverse = cs
    rw [dropWhile_isWsC_of_digits cs h2, dropWhile_isWsC_of_digits _ hrev,
        List.reverse_reverse]
  rw [jsNumParse, escrut]
  cases cs with
  | nil => exact absurd rfl h1
  | cons c rest =>
    have hc := h2 c (List.mem_cons_self c rest)
    obtain ⟨hcl, hcu⟩ := isDigitC_toNat hc
    have hplus : c ≠ '+' := ne_char_of_toNat (by intro he; rw [he] at hcl; revert hcl; decide)
    have hminus : c ≠ '-' := ne_char_of_toNat (by intro he; rw [he] at hcl; revert hcl; decide)
    show (if c = '+' then decOrInfinity rest
      else if c = '-' then Option.map jsnNegate (decOrInfinity rest)
      else
        match radixLiteral (c :: rest) with
        | some n => some n
        | none => decOrInfinity (c :: rest)) = _
    rw [if_neg hplus, if_neg hminus]
    have hradix : radixLiteral (c :: rest) = none := by
      cases rest with
      | nil => rfl
      | cons m ds =>
        have hm := isDigitC_toNat (h2 m (List.mem_cons_of_mem c (List.mem_cons_self m ds)))
        have hx : m ≠ 'x' :=
          ne_char_of_toNat (by rw [show Char.toNat 'x' = 120 from rfl]; omega)
        have hX : m ≠ 'X' :=
          ne_char_of_toNat (by rw [show Char.toNat 'X' = 88 from rfl]; omega)
        have ho : m ≠ 'o' :=
          ne_char_of_toNat (by rw [show Char.toNat 'o' = 111 from rfl]; omega)
        have hO : m ≠ 'O' :=
          ne_char_of_toNat (by rw [show Char.toNat 'O' = 79 from rfl]; omega)
        have hb : m ≠ 'b' :=
          ne_char_of_toNat (by rw [show Char.toNat 'b' = 98 from rfl]; omega)
        have hB : m ≠ 'B' :=
          ne_char_of_toNat (by rw [show Char.toNat 'B' = 66 from rfl]; omega)
        simp [radixLiteral, hx, hX, ho, hO, hb, hB]
    rw [hradix]
    have hInf : (c :: rest) ≠ "Infinity".data := by
      intro he
      have : c = 'I' := (List.cons.injEq _ _ _ _ ▸ he : _ ∧ _).1
      rw [this] at hcu
      revert hcu
      decide
    show decOrInfinity (c :: rest) = _
    rw [decOrInfinity, if_neg hInf, decLiteral,
        List.takeWhile_eq_self_iff.mpr h2, List.dropWhile_eq_nil_iff.mpr h2]
    rfl

theorem versionParts_wellformed {v : String} (h : dotVersionOk v = true) :
    ∀ p ∈ versionParts v, p.data ≠ [] ∧ ∀ c ∈ p.data, isDigitC c = true := by
  intro p hp
  have := (Bool.and_eq_true _ _).mp h
  have hall := List.all_eq_true.mp this.2 p hp
  have := (Bool.and_eq_true _ _).mp hall
  refine ⟨?_, fun c hc => List.all_eq_true.mp this.2 c hc⟩
  intro he
  have : p.isEmpty = true := by
    cases p
    simp [String.isEmpty, String.endPos, String.utf8ByteSize]
    simp_all
  simp [this] at hall

theorem versionComponent_eq {v : String} (h : dotVersionOk v = true) (i : ℕ) :
    versionComponent (versionParts v) i = .fin (natCompAt v i) := by
  rw [versionComponent, natCompAt]
  cases hi : (versionParts v).get? i with
  | none =>
    rw [List.get?_eq_getElem?] at hi
    rw [List.getD_eq_getElem?_getD, hi]
    simp [natOfDigits]
  | some s =>
    have hmem : s ∈ versionParts v := List.get?_mem hi
    obtain ⟨hne, hdig⟩ := versionParts_wellformed h s hmem
    have hparse : jsNumParse s = some (.fin (natOfDigits s.data)) :=
      jsNumParse_digits s.data hne hdig
    have hgetD : (versionParts v).getD i "" = s := by
      rw [List.getD_eq_getElem?_getD, ← List.get?_eq_getElem?, hi]
      rfl
    rw [hgetD]
    show (match jsNumParse s with
      | none => JsNum.fin 0
      | some n => if jsnEqb n (JsNum.fin 0) = true then JsNum.fin 0 else n) =
      JsNum.fin (natOfDigits s.data)
    rw [hparse]
    show (if jsnEqb (JsNum.fin (natOfDigits s.data)) (JsNum.fin 0) = true
      then JsNum.fin 0 else JsNum.fin (natOfDigits s.data)) = _
    by_cases hz : natOfDigits s.data = 0
    · simp [jsnEqb, hz]
    · simp [jsnEqb, Nat.cast_eq_zero, hz]

theorem cmpLoop_eq_lexGe {a b : String} (ha : dotVersionOk a = true)
    (hb : dotVersionOk b = true) (fuel : ℕ) :
    ∀ i, jsnLeZero (cmpLoop (versionParts b) (versionParts a) i fuel) =
      lexGeAux (natCompAt a) (natCompAt b) i fuel := by
  induction fuel with
  | zero => intro i; rfl
  | succ fuel ih =>
    intro i
    rw [cmpLoop, lexGeAux]
    rw [versionComponent_eq hb i, versionComponent_eq ha i]
    by_cases he : natCompAt a i = natCompAt b i
    · have heqb : jsnEqb (.fin (natCompAt b i)) (.fin (natCompAt a i)) = true := by
        simp [jsnEqb, he]
      rw [heqb, if_pos rfl, if_pos he]
      exact ih (i + 1)
    · have hne : ¬ ((natCompAt b i : ℚ) = (natCompAt a i : ℚ)) := by
        rw [Nat.cast_inj]
        exact fun hh => he hh.symm
      have heqb : jsnEqb (.fin (natCompAt b i)) (.fin (natCompAt a i)) = false := by
        simp [jsnEqb, hne]
      simp only [heqb, Bool.false_eq_true, if_false, if_neg he]
      show jsnLeZero (jsnSub (.fin (natCompAt b i)) (.fin (natCompAt a i))) = _
      have hne₂ : natCompAt b i ≠ natCompAt a i := fun hh => he hh.symm
      simp only [jsnSub, jsnLeZero, sub_nonpos, Nat.cast_le, decide_eq_decide]
      omega

theorem versionSortLE_eq_verGEb {x y : EndpointDescriptor}
    (hx : dotVersionOk x.version = true) (hy : dotVersionOk y.version = true) :
    versionSortLE x y = verGEb x.version y.version := by
  have hxne : x.version.isEmpty = false := by
    have := (Bool.and_eq_true _ _).mp hx
    simpa using this.1
  have hyne : y.version.isEmpty = false := by
    have := (Bool.and_eq_true _ _).mp hy
    simpa using this.1
  rw [versionSortLE, compareVersions, verGEb]
  rw [hxne, hyne]
  simp only [Bool.or_self, Bool.false_eq_true, if_false]
  rw [cmpLoop_eq_lexGe hx hy]
  rw [max_comm]

theorem natCompAt_zero_of_le {v : String} {i : ℕ}
    (h : (versionParts v).length ≤ i) : natCompAt v i = 0 := by
  rw [natCompAt, List.getD_eq_getElem?_getD, List.getElem?_eq_none h]
  simp [natOfDigits]

theorem lexGeAux_extend (f g : ℕ → ℕ) :
    ∀ (fuel k i : ℕ), (∀ j, i + fuel ≤ j → f j = g j) →
      lexGeAux f g i (fuel + k) = lexGeAux f g i fuel := by
  intro fuel
  induction fuel with
  | zero =>
    intro k
    induction k with
    | zero => intro i h; rfl
    | succ k ihk =>
      intro i h
      show (if f i = g i then lexGeAux f g (i + 1) (0 + k) else decide (g i < f i)) =
        lexGeAux f g i 0
      rw [if_pos (h i (by omega))]
      rw [ihk (i + 1) (fun j hj => h j (by omega))]
      rfl
  | succ fuel ihf =>
    intro k i h
    have hshift : fuel + 1 + k = (fuel + k) + 1 := by omega
    rw [hshift]
    show (if f i = g i then lexGeAux f g (i + 1) (fuel + k) else decide (g i < f i)) =
      (if f i = g i then lexGeAux f g (i + 1) fuel else decide (g i < f i))
    by_cases he : f i = g i
    · rw [if_pos he, if_pos he, ihf k (i + 1) (fun j hj => h j (by omega))]
    · rw [if_neg he, if_neg he]

theorem lexGeAux_total (f g : ℕ → ℕ) :
    ∀ (fuel i : ℕ), (lexGeAux f g i fuel || lexGeAux g f i fuel) = true := by
  intro fuel
  induction fuel with
  | zero => intro i; rfl
  | succ fuel ih =>
    intro i
    rw [lexGeAux, lexGeAux]
    by_cases he : f i = g i
    · rw [if_pos he, if_pos he.symm]
      exact ih (i + 1)
    · rw [if_neg he, if_neg (fun hh => he hh.symm)]
      simp only [decide_eq_true_eq, Bool.or_eq_true]
      omega

theorem lexGeAux_trans (f g k : ℕ → ℕ) :
    ∀ (fuel i : ℕ), lexGeAux f g i fuel = true → lexGeAux g k i fuel = true →
      lexGeAux f k i fuel = true := by
  intro fuel
  induction fuel with
  | zero => intro i h₁ h₂; rfl
  | succ fuel ih =>
    intro i h₁ h₂
    rw [lexGeAux] at h₁ h₂ ⊢
    by_cases he₁ : f i = g i
    · by_cases he₂ : g i = k i
      · rw [if_pos (he₁.trans he₂)]
        rw [if_pos he₁] at h₁
        rw [if_pos he₂] at h₂
        exact ih (i + 1) h₁ h₂
      · rw [if_neg he₂] at h₂
        have hk : k i < g i := by simpa using h₂
        rw [if_neg (by omega)]
        simp
        omega
    · rw [if_neg he₁] at h₁
      have hg : g i < f i := by simpa using h₁
      by_cases he₂ : g i = k i
      · rw [if_neg (by omega)]
        simp
        omega
      · rw [if_neg he₂] at h₂
        have hk : k i < g i := by simpa using h₂
        rw [if_neg (by omega)]
        simp
        omega

theorem verGEb_trans {a b c : String} (h₁ : verGEb a b = true) (h₂ : verGEb b c = true) :
    verGEb a c = true := by
  set la := (versionParts a).length with hla
  set lb := (versionParts b).length with hlb
  set lc := (versionParts c).length with hlc
  have hzero : ∀ (v : String) (j : ℕ), (versionParts v).length ≤ j → natCompAt v j = 0 :=
    fun v j hj => natCompAt_zero_of_le hj
  set F := max la (max lb lc) with hF
  have hext : ∀ (x y : String), (versionParts x).length ≤ F → (versionParts y).length ≤ F →
      verGEb x y = lexGeAux (natCompAt x) (natCompAt y) 0 F := by
    intro x y hx hy
    rw [verGEb]
    obtain ⟨d, hd⟩ := Nat.exists_eq_add_of_le
      (Nat.max_le.mpr ⟨hx, hy⟩ :
        max (versionParts x).length (versionParts y).length ≤ F)
    rw [hd, lexGeAux_extend (natCompAt x) (natCompAt y) _ d 0 ?side]
    case side =>
      intro j hj
      rw [hzero x j (by omega), hzero y j (by omega)]
  rw [hext a b (by omega) (by omega)] at h₁
  rw [hext b c (by omega) (by omega)] at h₂
  rw [hext a c (by omega) (by omega)]
  exact lexGeAux_trans _ _ _ F 0 h₁ h₂

theorem verGEb_total (a b : String) : (verGEb a b || verGEb b a) = true := by
  rw [verGEb, verGEb, Nat.max_comm]
  exact lexGeAux_total _ _ _ 0

theorem jsSortInsert_perm {α : Type} (le : α → α → Bool) (x : α) (l : List α) :
    (jsSortInsert le x l).Perm (x :: l) := by
  induction l with
  | nil => exact List.Perm.refl _
  | cons y ys ih =>
    rw [jsSortInsert]
    by_cases h : le x y
    · rw [if_pos h]
    · rw [if_neg h]
      exact (ih.cons y).trans (List.Perm.swap x y ys)

theorem jsSort_perm {α : Type} (le : α → α → Bool) (l : List α) :
    (jsSort le l).Perm l := by
  induction l with
  | nil => exact List.Perm.refl _
  | cons x xs ih =>
    rw [jsSort]
    exact (jsSortInsert_perm le x (jsSort le xs)).trans (ih.cons x)

theorem jsSort_head_max {α : Type} (le : α → α → Bool) (l : List α)
    (htot : ∀ x ∈ l, ∀ y ∈ l, (le x y || le y x) = true)
    (htrans : ∀ x ∈ l, ∀ y ∈ l, ∀ z ∈ l,
      le x y = true → le y z = true → le x z = true) :
    ∀ e, (jsSort le l).head? = some e → e ∈ l ∧ ∀ y ∈ l, le e y = true := by
  induction l with
  | nil => intro e he; cases he
  | cons x xs ih =>
    have htot' : ∀ a ∈ xs, ∀ b ∈ xs, (le a b || le b a) = true :=
      fun a ha b hb => htot a (List.mem_cons_of_mem x ha) b (List.mem_cons_of_mem x hb)
    have htrans' : ∀ a ∈ xs, ∀ b ∈ xs, ∀ c ∈ xs,
        le a b = true → le b c = true → le a c = true :=
      fun a ha b hb c hc => htrans a (List.mem_cons_of_mem x ha)
        b (List.mem_cons_of_mem x hb) c (List.mem_cons_of_mem x hc)
    intro e he
    rw [jsSort] at he
    cases hs : jsSort le xs with
    | nil =>
      have hxs : xs = [] := by
        have hp := jsSort_perm le xs
        rw [hs] at hp
        exact hp.symm.eq_nil
      rw [hs] at he
      have hex : e = x := by
        rw [jsSortInsert] at he
        simpa using he.symm
      subst hex
      refine ⟨List.mem_cons_self _ _, fun y hy => ?_⟩
      subst hxs
      have hyx : y = e := by simpa using hy
      subst hyx
      have := htot y (List.mem_cons_self _ _) y (List.mem_cons_self _ _)
      simpa using this
    | cons h₂ rest₂ =>
      obtain ⟨hmem₂, hmax₂⟩ := ih htot' htrans' h₂ (by rw [hs]; rfl)
      rw [hs, jsSortInsert] at he
      by_cases hxh : le x h₂ = true
      · rw [if_pos hxh] at he
        have hex : e = x := by simpa using he.symm
        subst hex
        refine ⟨List.mem_cons_self _ _, fun y hy => ?_⟩
        rcases List.mem_cons.mp hy with hyx | hyxs
        · subst hyx
          have := htot y (List.mem_cons_self _ _) y (List.mem_cons_self _ _)
          simpa using this
        · exact htrans e (List.mem_cons_self _ _) h₂ (List.mem_cons_of_mem _ hmem₂)
            y (List.mem_cons_of_mem _ hyxs) hxh (hmax₂ y hyxs)
      · rw [if_neg hxh] at he
        have hex : e = h₂ := by simpa using he.symm
        subst hex
        refine ⟨List.mem_cons_of_mem x hmem₂, fun y hy => ?_⟩
        rcases List.mem_cons.mp hy with hyx | hyxs
        · subst hyx
          have := htot y (List.mem_cons_self _ _) e (List.mem_cons_of_mem _ hmem₂)
          rcases Bool.or_eq_true_iff.mp this with h | h
          · exact absurd h hxh
          · exact h
        · exact hmax₂ y hyxs

/-- C6: for every non-empty descriptor list with dot-separated numeric
versions, the unspecified-version service-endpoint lookup returns a
descriptor of the list whose version is numerically greatest under
left-to-right integer component comparison with missing trailing
components read as zero; on versions 1.2.1, 2.0.0, 1.0.0 it returns the
2.0.0 descriptor. -/
theorem c6_latest_version_selected :
    (∀ es : List EndpointDescriptor, es ≠ [] →
      (∀ e ∈ es, dotVersionOk e.version = true) →
      ∃ e, getServiceEndpointNoVersion es = .ok e ∧ e ∈ es ∧
        ∀ e₂ ∈ es, verGEb e.version e₂.version = true) ∧
    getServiceEndpointNoVersion
        [⟨"1.2.1", "", "", "active"⟩, ⟨"2.0.0", "", "", "active"⟩,
         ⟨"1.0.0", "", "", "active"⟩] =
      .ok ⟨"2.0.0", "", "", "active"⟩ := by
  constructor
  · intro es hne hwf
    have htot : ∀ x ∈ es, ∀ y ∈ es,
        (versionSortLE x y || versionSortLE y x) = true := by
      intro x hx y hy
      rw [versionSortLE_eq_verGEb (hwf x hx) (hwf y hy),
          versionSortLE_eq_verGEb (hwf y hy) (hwf x hx)]
      exact verGEb_total _ _
    have htrans : ∀ x ∈ es, ∀ y ∈ es, ∀ z ∈ es, versionSortLE x y = true →
        versionSortLE y z = true → versionSortLE x z = true := by
      intro x hx y hy z hz h₁ h₂
      rw [versionSortLE_eq_verGEb (hwf x hx) (hwf y hy)] at h₁
      rw [versionSortLE_eq_verGEb (hwf y hy) (hwf z hz)] at h₂
      rw [versionSortLE_eq_verGEb (hwf x hx) (hwf z hz)]
      exact verGEb_trans h₁ h₂
    have hsne : jsSort versionSortLE es ≠ [] := by
      intro h0
      have hp := jsSort_perm versionSortLE es
      rw [h0] at hp
      exact hne (List.Perm.nil_eq hp).symm
    cases hhead : (jsSort versionSortLE es).head? with
    | none => exact absurd (List.head?_eq_none_iff.mp hhead) hsne
    | some e =>
      obtain ⟨hm, hmax⟩ := jsSort_head_max versionSortLE es htot htrans e hhead
      refine ⟨e, ?_, hm, fun e₂ h₂ => ?_⟩
      · rw [getServiceEndpointNoVersion,
            if_neg (by simp [List.isEmpty_iff, hne]),
            getLatestEndpoint, hhead]
      · rw [← versionSortLE_eq_verGEb (hwf e hm) (hwf e₂ h₂)]
        exact hmax e₂ h₂
  · have d₁ : dotVersionOk "1.2.1" = true := by decide
    have d₂ : dotVersionOk "2.0.0" = true := by decide
    have d₃ : dotVersionOk "1.0.0" = true := by decide
    have l₁ : versionSortLE ⟨"1.2.1", "", "", "active"⟩
        ⟨"2.0.0", "", "", "active"⟩ = false := by
      rw [versionSortLE_eq_verGEb d₁ d₂]
      decide
    have l₂ : versionSortLE ⟨"2.0.0", "", "", "active"⟩
        ⟨"1.0.0", "", "", "active"⟩ = true := by
      rw [versionSortLE_eq_verGEb d₂ d₃]
      decide
    have l₃ : versionSortLE ⟨"1.2.1", "", "", "active"⟩
        ⟨"1.0.0", "", "", "active"⟩ = true := by
      rw [versionSortLE_eq_verGEb d₁ d₃]
      decide
    simp [getServiceEndpointNoVersion, getLatestEndpoint, jsSort, jsSortInsert,
          l₁, l₂, l₃]

/-- Witness for C6 at the three-version list of the claim: existence with
the maximality property discharged concretely. -/
theorem c6_latest_version_selected_witness :
    ∃ e, getServiceEndpointNoVersion
        [⟨"1.2.1", "", "", "active"⟩, ⟨"2.0.0", "", "", "active"⟩,
         ⟨"1.0.0", "", "", "active"⟩] = .ok e ∧
      e ∈ ([⟨"1.2.1", "", "", "active"⟩, ⟨"2.0.0", "", "", "active"⟩,
            ⟨"1.0.0", "", "", "active"⟩] : List EndpointDescriptor) ∧
      ∀ e₂ ∈ ([⟨"1.2.1", "", "", "active"⟩, ⟨"2.0.0", "", "", "active"⟩,
               ⟨"1.0.0", "", "", "active"⟩] : List EndpointDescriptor),
        verGEb e.version e₂.version = true :=
  c6_latest_version_selected.1
    [⟨"1.2.1", "", "", "active"⟩, ⟨"2.0.0", "", "", "active"⟩,
     ⟨"1.0.0", "", "", "active"⟩]
    (by simp) (by intro e he; fin_cases he <;> decide)

theorem isLowerC_toNat {c : Char} (h : isLowerC c = true) :
    97 ≤ c.toNat ∧ c.toNat ≤ 122 := by
  simpa [isLowerC] using h

theorem isUpperC_toNat {c : Char} (h : isUpperC c = true) :
    65 ≤ c.toNat ∧ c.toNat ≤ 90 := by
  simpa [isUpperC] using h

theorem toNat_ofNat_valid {n : ℕ} (h : n < 55296) : (Char.ofNat n).toNat = n := by
  have hv : n.isValidChar := Or.inl h
  simp only [Char.ofNat, dif_pos hv, Char.ofNatAux, Char.toNat]
  have hlt : n < 2 ^ 32 := by omega
  simp [UInt32.toNat, BitVec.toNat_ofNatLt]

theorem isDigitC_false_of_lower {c : Char} (h : isLowerC c = true) :
    isDigitC c = false := by
  have hb := isLowerC_toNat h
  simp only [isDigitC]
  have : ¬ (c.toNat ≤ 57) := by omega
  simp [this]

theorem isUpperC_false_of_lower {c : Char} (h : isLowerC c = true) :
    isUpperC c = false := by
  have hb := isLowerC_toNat h
  simp only [isUpperC]
  have : ¬ (c.toNat ≤ 90) := by omega
  simp [this]

theorem isDigitC_false_of_upper {c : Char} (h : isUpperC c = true) :
    isDigitC c = false := by
  have hb := isUpperC_toNat h
  simp only [isDigitC]
  have : ¬ (48 ≤ c.toNat) ∨ ¬ (c.toNat ≤ 57) := by omega
  rcases this with h₂ | h₂ <;> simp [h₂]

theorem isLowerC_false_of_upper {c : Char} (h : isUpperC c = true) :
    isLowerC c = false := by
  have hb := isUpperC_toNat h
  simp only [isLowerC]
  have : ¬ (97 ≤ c.toNat) := by omega
  simp [this]

theorem toUpper_toNat_of_lower {c : Char} (h : isLowerC c = true) :
    (Char.toUpper c).toNat = c.toNat - 32 := by
  have hb := isLowerC_toNat h
  show (if c.toNat ≥ 97 ∧ c.toNat ≤ 122 then Char.ofNat (c.toNat - 32) else c).toNat
    = c.toNat - 32
  rw [if_pos (by omega)]
  exact toNat_ofNat_valid (by omega)

theorem isUpperC_toUpper_of_lower {c : Char} (h : isLowerC c = true) :
    isUpperC (Char.toUpper c) = true := by
  have hb := isLowerC_toNat h
  have ht := toUpper_toNat_of_lower h
  simp only [isUpperC, ht]
  have h₁ : 65 ≤ c.toNat - 32 := by omega
  have h₂ : c.toNat - 32 ≤ 90 := by omega
  simp [h₁, h₂]

theorem toLower_of_lower {c : Char} (h : isLowerC c = true) :
    Char.toLower c = c := by
  have hb := isLowerC_toNat h
  show (if c.toNat ≥ 65 ∧ c.toNat ≤ 90 then Char.ofNat (c.toNat + 32) else c) = c
  rw [if_neg (by omega)]

theorem toLower_toUpper_of_lower {c : Char} (h : isLowerC c = true) :
    Char.toLower (Char.toUpper c) = c := by
  have hb := isLowerC_toNat h
  have ht := toUpper_toNat_of_lower h
  show (if (Char.toUpper c).toNat ≥ 65 ∧ (Char.toUpper c).toNat ≤ 90 then
    Char.ofNat ((Char.toUpper c).toNat + 32) else Char.toUpper c) = c
  rw [if_pos (by omega), ht]
  have : c.toNat - 32 + 32 = c.toNat := by omega
  rw [this, Char.ofNat_toNat]

theorem isLowerWord_iff {w : List Char} :
    isLowerWord w = true ↔ w ≠ [] ∧ ∀ c ∈ w, isLowerC c = true := by
  simp [isLowerWord, List.all_eq_true]

theorem isUpperWord_upWord {w : List Char} (h : isLowerWord w = true) :
    isUpperWord (upWord w) = true := by
  obtain ⟨hne, hall⟩ := isLowerWord_iff.mp h
  simp only [isUpperWord, upWord, Bool.and_eq_true, List.all_eq_true]
  constructor
  · simp [List.isEmpty_iff, hne]
  · intro c hc
    obtain ⟨d, hd, rfl⟩ := List.mem_map.mp hc
    exact isUpperC_toUpper_of_lower (hall d hd)

theorem flushInto_ne {acc : List Char} (h : acc ≠ []) (ws : List (List Char)) :
    flushInto acc ws = acc.reverse :: ws := by
  cases acc with
  | nil => exact absurd rfl h
  | cons c rest => rfl

theorem goBreak (acc : List Char) (cl : CClass) (cs : List Char) :
    goWords acc cl ('_' :: cs) = flushInto acc (goWords [] .start cs) := by
  cases cl <;> rfl

theorem goStep_lower_low {c : Char} (h : isLowerC c = true) (acc cs) :
    goWords acc .low (c :: cs) = goWords (c :: acc) .low cs := by
  simp [goWords, isDigitC_false_of_lower h, h]

theorem goStep_upper_up {c : Char} (h : isUpperC c = true) (acc cs) :
    goWords acc .up (c :: cs) = goWords (c :: acc) .up cs := by
  simp [goWords, isDigitC_false_of_upper h, isLowerC_false_of_upper h, h]

theorem goStart_lower {c : Char} (h : isLowerC c = true) (cs) :
    goWords [] .start (c :: cs) = goWords [c] .low cs := by
  simp [goWords, isDigitC_false_of_lower h, h, flushInto]

theorem goStart_upper {c : Char} (h : isUpperC c = true) (cs) :
    goWords [] .start (c :: cs) = goWords [c] .up cs := by
  simp [goWords, isDigitC_false_of_upper h, isLowerC_false_of_upper h, h, flushInto]

theorem goLow_upper {c : Char} (h : isUpperC c = true) (acc cs) :
    goWords acc .low (c :: cs) = flushInto acc (goWords [c] .up cs) := by
  simp [goWords, isDigitC_false_of_upper h, isLowerC_false_of_upper h, h]

theorem goUp_lower {c : Char} (h : isLowerC c = true) (u urest cs) :
    goWords (u :: urest) .up (c :: cs) =
      flushInto urest (goWords [c, u] .low cs) := by
  simp [goWords, isDigitC_false_of_lower h, h]

theorem goLowerRun : ∀ (w : List Char), (∀ c ∈ w, isLowerC c = true) →
    ∀ acc cs, goWords acc .low (w ++ cs) = goWords (w.reverse ++ acc) .low cs := by
  intro w
  induction w with
  | nil => intro _ acc cs; simp
  | cons c w' ih =>
    intro h acc cs
    rw [List.cons_append, goStep_lower_low (h c (List.mem_cons_self c w')) acc (w' ++ cs),
        ih (fun d hd => h d (List.mem_cons_of_mem c hd)) (c :: acc) cs]
    simp

theorem goUpperRun : ∀ (w : List Char), (∀ c ∈ w, isUpperC c = true) →
    ∀ acc cs, goWords acc .up (w ++ cs) = goWords (w.reverse ++ acc) .up cs := by
  intro w
  induction w with
  | nil => intro _ acc cs; simp
  | cons c w' ih =>
    intro h acc cs
    rw [List.cons_append, goStep_upper_up (h c (List.mem_cons_self c w')) acc (w' ++ cs),
        ih (fun d hd => h d (List.mem_cons_of_mem c hd)) (c :: acc) cs]
    simp

theorem snakeWords : ∀ ws : List (List Char), ws ≠ [] →
    (∀ w ∈ ws, isLowerWord w = true) →
    goWords [] .start (snakeRender ws) = ws := by
  intro ws
  induction ws with
  | nil => intro h; exact absurd rfl h
  | cons w rest ih =>
    intro _ hws
    obtain ⟨hne, hall⟩ := isLowerWord_iff.mp (hws w (List.mem_cons_self w rest))
    obtain ⟨c, w', rfl⟩ := List.exists_cons_of_ne_nil hne
    have hc := hall c (List.mem_cons_self c w')
    have hall' := fun d hd => hall d (List.mem_cons_of_mem c hd)
    cases rest with
    | nil =>
      show goWords [] .start (c :: w') = [c :: w']
      rw [goStart_lower hc]
      have hrun := goLowerRun w' hall' [c] []
      rw [List.append_nil] at hrun
      rw [hrun,
          show goWords (w'.reverse ++ [c]) .low [] =
            flushInto (w'.reverse ++ [c]) [] from rfl,
          flushInto_ne (by simp)]
      simp
    | cons w₂ rest₂ =>
      show goWords [] .start ((c :: w') ++ '_' :: snakeRender (w₂ :: rest₂)) = _
      rw [List.cons_append, goStart_lower hc, goLowerRun w' hall' [c] _,
          goBreak, flushInto_ne (by simp),
          ih (by simp) (fun v hv => hws v (List.mem_cons_of_mem _ hv))]
      simp

theorem snakeWordsUp : ∀ ws : List (List Char), ws ≠ [] →
    (∀ w ∈ ws, isUpperWord w = true) →
    goWords [] .start (snakeRender ws) = ws := by
  intro ws
  induction ws with
  | nil => intro h; exact absurd rfl h
  | cons w rest ih =>
    intro _ hws
    have hw := hws w (List.mem_cons_self w rest)
    simp only [isUpperWord, Bool.and_eq_true, List.all_eq_true] at hw
    have hne : w ≠ [] := by
      intro h0
      rw [h0] at hw
      simp at hw
    obtain ⟨c, w', rfl⟩ := List.exists_cons_of_ne_nil hne
    have hc := hw.2 c (List.mem_cons_self c w')
    have hall' := fun d hd => hw.2 d (List.mem_cons_of_mem c hd)
    cases rest with
    | nil =>
      show goWords [] .start (c :: w') = [c :: w']
      rw [goStart_upper hc]
      have hrun := goUpperRun w' hall' [c] []
      rw [List.append_nil] at hrun
      rw [hrun,
          show goWords (w'.reverse ++ [c]) .up [] =
            flushInto (w'.reverse ++ [c]) [] from rfl,
          flushInto_ne (by simp)]
      simp
    | cons w₂ rest₂ =>
      show goWords [] .start ((c :: w') ++ '_' :: snakeRender (w₂ :: rest₂)) = _
      rw [List.cons_append, goStart_upper hc, goUpperRun w' hall' [c] _,
          goBreak, flushInto_ne (by simp),
          ih (by simp) (fun v hv => hws v (List.mem_cons_of_mem _ hv))]
      simp

theorem screamWords (ws : List (List Char)) (hne : ws ≠ [])
    (hws : ∀ w ∈ ws, isLowerWord w = true) :
    goWords [] .start (screamRender ws) = ws.map upWord := by
  rw [screamRender]
  apply snakeWordsUp
  · simp [hne]
  · intro w hw
    obtain ⟨v, hv, rfl⟩ := List.mem_map.mp hw
    exact isUpperWord_upWord (hws v hv)

theorem noAdjacentSingles_tail {w : List Char} {ws : List (List Char)}
    (h : noAdjacentSingles (w :: ws) = true) : noAdjacentSingles ws = true := by
  cases ws with
  | nil => rfl
  | cons w₂ rest => exact ((Bool.and_eq_true _ _).mp h).2

theorem pascalRender_cons (w : List Char) (ws : List (List Char)) :
    pascalRender (w :: ws) = capWord w ++ pascalRender ws := by
  simp [pascalRender]

theorem pascalStep : ∀ (n : ℕ) (ws : List (List Char)), ws.length ≤ n →
    (∀ w ∈ ws, isLowerWord w = true) → noAdjacentSingles ws = true →
    ∀ pre : List Char, goWords pre .low (pascalRender ws) =
      flushInto pre (ws.map capWord) := by
  intro n
  induction n with
  | zero =>
    intro ws hlen _ _ pre
    have : ws = [] := List.length_eq_zero.mp (Nat.le_zero.mp hlen)
    subst this
    rfl
  | succ n ihn =>
    intro ws hlen hws hadj pre
    cases ws with
    | nil => rfl
    | cons w rest =>
      obtain ⟨hne, hall⟩ := isLowerWord_iff.mp (hws w (List.mem_cons_self w rest))
      obtain ⟨c, w', rfl⟩ := List.exists_cons_of_ne_nil hne
      have hc := hall c (List.mem_cons_self c w')
      have hall' := fun d hd => hall d (List.mem_cons_of_mem c hd)
      have hC : isUpperC (Char.toUpper c) = true := isUpperC_toUpper_of_lower hc
      rw [pascalRender_cons]
      show goWords pre .low ((Char.toUpper c :: w') ++ pascalRender rest) = _
      rw [List.cons_append, goLow_upper hC]
      have core : goWords [Char.toUpper c] .up (w' ++ pascalRender rest) =
          List.map capWord ((c :: w') :: rest) := by
        cases w' with
        | cons d w₃ =>
          have hd := hall' d (List.mem_cons_self d w₃)
          have hall₃ := fun e he => hall' e (List.mem_cons_of_mem d he)
          rw [List.cons_append, goUp_lower hd]
          show goWords [d, Char.toUpper c] .low (w₃ ++ pascalRender rest) = _
          rw [goLowerRun w₃ hall₃ [d, Char.toUpper c] (pascalRender rest)]
          have hacc : w₃.reverse ++ [d, Char.toUpper c] =
              (capWord (c :: d :: w₃)).reverse := by
            simp [capWord]
          rw [hacc, ihn rest (by simp only [List.length_cons] at hlen; omega)
              (fun v hv => hws v (List.mem_cons_of_mem _ hv))
              (noAdjacentSingles_tail hadj),
              flushInto_ne (by simp [capWord])]
          simp
        | nil =>
          cases rest with
          | nil => rfl
          | cons w₂ rest₂ =>
            obtain ⟨hne₂, hall₂⟩ := isLowerWord_iff.mp
              (hws w₂ (List.mem_cons_of_mem _ (List.mem_cons_self w₂ rest₂)))
            obtain ⟨d, w₂', rfl⟩ := List.exists_cons_of_ne_nil hne₂
            have hlen₂ : w₂'.length ≠ 0 := by
              intro h0
              have := (Bool.and_eq_true _ _).mp hadj
              simp [List.length_eq_zero.mp h0] at this
            have hne₄ : w₂' ≠ [] := by
              intro h0
              rw [h0] at hlen₂
              exact hlen₂ rfl
            obtain ⟨e, w₄, rfl⟩ := List.exists_cons_of_ne_nil hne₄
            have hdl := hall₂ d (List.mem_cons_self _ _)
            have hel := hall₂ e (List.mem_cons_of_mem _ (List.mem_cons_self _ _))
            have hall₄ := fun v hv => hall₂ v
              (List.mem_cons_of_mem _ (List.mem_cons_of_mem _ hv))
            have hD : isUpperC (Char.toUpper d) = true := isUpperC_toUpper_of_lower hdl
            rw [List.nil_append, pascalRender_cons]
            show goWords [Char.toUpper c] .up
              ((Char.toUpper d :: e :: w₄) ++ pascalRender rest₂) = _
            rw [List.cons_append, goStep_upper_up hD, List.cons_append,
                goUp_lower hel]
            show flushInto [Char.toUpper c]
              (goWords [e, Char.toUpper d] .low (w₄ ++ pascalRender rest₂)) = _
            rw [goLowerRun w₄ hall₄ [e, Char.toUpper d] (pascalRender rest₂)]
            have hacc : w₄.reverse ++ [e, Char.toUpper d] =
                (capWord (d :: e :: w₄)).reverse := by
              simp [capWord]
            rw [hacc, ihn rest₂ (by
                  have := hlen
                  simp only [List.length_cons] at this ⊢
                  omega)
                (fun v hv => hws v (List.mem_cons_of_mem _ (List.mem_cons_of_mem _ hv)))
                (noAdjacentSingles_tail (noAdjacentSingles_tail hadj)),
                flushInto_ne (by simp), flushInto_ne (by simp [show capWord (d :: e :: w₄) = Char.toUpper d :: e :: w₄ from rfl])]
            simp [capWord]
      rw [core]

theorem goStart_eq_goLow_of_upper {c : Char} (h : isUpperC c = true) (cs) :
    goWords [] .start (c :: cs) = goWords [] .low (c :: cs) := by
  rw [goStart_upper h, goLow_upper h]
  rfl

theorem pascalWords (ws : List (List Char)) (hne : ws ≠ [])
    (hws : ∀ w ∈ ws, isLowerWord w = true) (hadj : noAdjacentSingles ws = true) :
    goWords [] .start (pascalRender ws) = ws.map capWord := by
  cases ws with
  | nil => exact absurd rfl hne
  | cons w rest =>
    obtain ⟨hwne, hall⟩ := isLowerWord_iff.mp (hws w (List.mem_cons_self w rest))
    obtain ⟨c, w', rfl⟩ := List.exists_cons_of_ne_nil hwne
    have hC : isUpperC (Char.toUpper c) = true :=
      isUpperC_toUpper_of_lower (hall c (List.mem_cons_self c w'))
    rw [pascalRender_cons]
    show goWords [] .start ((Char.toUpper c :: w') ++ pascalRender rest) = _
    rw [List.cons_append, goStart_eq_goLow_of_upper hC, ← List.cons_append]
    have := pascalStep ((c :: w') :: rest).length ((c :: w') :: rest) le_rfl hws hadj []
    rw [pascalRender_cons] at this
    show goWords [] .low (capWord (c :: w') ++ pascalRender rest) = _
    rw [this]
    rfl

theorem lowWord_of_lower {w : List Char} (h : ∀ c ∈ w, isLowerC c = true) :
    lowWord w = w := by
  induction w with
  | nil => rfl
  | cons c rest ih =>
    simp only [lowWord, List.map_cons]
    rw [toLower_of_lower (h c (List.mem_cons_self c rest))]
    have := ih (fun d hd => h d (List.mem_cons_of_mem c hd))
    rw [lowWord] at this
    rw [this]

theorem lowWord_capWord {w : List Char} (h : ∀ c ∈ w, isLowerC c = true) :
    lowWord (capWord w) = w := by
  cases w with
  | nil => rfl
  | cons c rest =>
    show Char.toLower (Char.toUpper c) :: lowWord rest = c :: rest
    rw [toLower_toUpper_of_lower (h c (List.mem_cons_self c rest)),
        lowWord_of_lower (fun d hd => h d (List.mem_cons_of_mem c hd))]

theorem lowWord_upWord {w : List Char} (h : ∀ c ∈ w, isLowerC c = true) :
    lowWord (upWord w) = w := by
  induction w with
  | nil => rfl
  | cons c rest ih =>
    show Char.toLower (Char.toUpper c) :: lowWord (upWord rest) = c :: rest
    rw [toLower_toUpper_of_lower (h c (List.mem_cons_self c rest)),
        ih (fun d hd => h d (List.mem_cons_of_mem c hd))]

theorem renderCamel_snakeWords {ws : List (List Char)}
    (hws : ∀ w ∈ ws, isLowerWord w = true) :
    renderCamel ws = lowerCamelRender ws := by
  cases ws with
  | nil => rfl
  | cons w rest =>
    rw [renderCamel, lowerCamelRender,
        lowWord_of_lower (isLowerWord_iff.mp (hws w (List.mem_cons_self w rest))).2]
    congr 1
    apply congrArg
    apply List.map_congr_left
    intro v hv
    rw [lowWord_of_lower (isLowerWord_iff.mp
      (hws v (List.mem_cons_of_mem w hv))).2]

theorem renderCamel_capWords {ws : List (List Char)}
    (hws : ∀ w ∈ ws, isLowerWord w = true) :
    renderCamel (ws.map capWord) = lowerCamelRender ws := by
  cases ws with
  | nil => rfl
  | cons w rest =>
    simp only [List.map_cons]
    rw [renderCamel, lowerCamelRender,
        lowWord_capWord (isLowerWord_iff.mp (hws w (List.mem_cons_self w rest))).2]
    congr 1
    rw [List.map_map]
    apply congrArg
    apply List.map_congr_left
    intro v hv
    show capWord (lowWord (capWord v)) = capWord v
    rw [lowWord_capWord (isLowerWord_iff.mp
      (hws v (List.mem_cons_of_mem w hv))).2]

theorem renderCamel_upWords {ws : List (List Char)}
    (hws : ∀ w ∈ ws, isLowerWord w = true) :
    renderCamel (ws.map upWord) = lowerCamelRender ws := by
  cases ws with
  | nil => rfl
  | cons w rest =>
    simp only [List.map_cons]
    rw [renderCamel, lowerCamelRender,
        lowWord_upWord (isLowerWord_iff.mp (hws w (List.mem_cons_self w rest))).2]
    congr 1
    rw [List.map_map]
    apply congrArg
    apply List.map_congr_left
    intro v hv
    show capWord (lowWord (upWord v)) = capWord v
    rw [lowWord_upWord (isLowerWord_iff.mp
      (hws v (List.mem_cons_of_mem w hv))).2]

/-- C4 counterexample: the claim is false as stated — the words a, b render
in PascalCase as AB and in snake_case as a_b, yet key normalization yields
ab for the former and aB for the latter, so the three casings do not always
normalize to the identical key. -/
theorem c4_counterexample :
    pascalRender [['a'], ['b']] = "AB".data ∧
    snakeRender [['a'], ['b']] = "a_b".data ∧
    normalizeKey "AB" = "ab" ∧
    normalizeKey "a_b" = "aB" ∧
    ("ab" : String) ≠ "aB" := by
  refine ⟨by decide, by decide, by decide, by decide, by decide⟩

/-- C4 amended: for every non-empty list of words (non-empty lowercase
ASCII runs), the snake_case and SCREAMING_SNAKE renderings always
normalize to the identical lowerCamelCase key, and the PascalCase
rendering agrees additionally whenever no two adjacent words are both
single letters; the claim instance holds: ProductID, product_id and
PRODUCT_ID all normalize to productId. -/
theorem c4_casing_agreement :
    ∀ ws : List (List Char), ws ≠ [] → (∀ w ∈ ws, isLowerWord w = true) →
      normalizeKey (String.mk (snakeRender ws)) = String.mk (lowerCamelRender ws) ∧
      normalizeKey (String.mk (screamRender ws)) = String.mk (lowerCamelRender ws) ∧
      (noAdjacentSingles ws = true →
        normalizeKey (String.mk (pascalRender ws)) =
          String.mk (lowerCamelRender ws)) ∧
      normalizeKey "ProductID" = "productId" ∧
      normalizeKey "product_id" = "productId" ∧
      normalizeKey "PRODUCT_ID" = "productId" := by
  intro ws hne hws
  refine ⟨?_, ?_, fun hadj => ?_, by decide, by decide, by decide⟩
  · show String.mk (renderCamel (goWords [] .start (snakeRender ws))) = _
    rw [snakeWords ws hne hws, renderCamel_snakeWords hws]
  · show String.mk (renderCamel (goWords [] .start (screamRender ws))) = _
    rw [screamWords ws hne hws, renderCamel_upWords hws]
  · show String.mk (renderCamel (goWords [] .start (pascalRender ws))) = _
    rw [pascalWords ws hne hws hadj, renderCamel_capWords hws]

/-- Witness for C4 amended at the words product, id. -/
theorem c4_casing_agreement_witness :
    normalizeKey (String.mk (snakeRender [['p','r','o','d','u','c','t'], ['i','d']])) =
      String.mk (lowerCamelRender [['p','r','o','d','u','c','t'], ['i','d']]) ∧
    normalizeKey (String.mk (screamRender [['p','r','o','d','u','c','t'], ['i','d']])) =
      String.mk (lowerCamelRender [['p','r','o','d','u','c','t'], ['i','d']]) ∧
    normalizeKey (String.mk (pascalRender [['p','r','o','d','u','c','t'], ['i','d']])) =
      String.mk (lowerCamelRender [['p','r','o','d','u','c','t'], ['i','d']]) :=
  ⟨(c4_casing_agreement [['p','r','o','d','u','c','t'], ['i','d']]
      (by decide) (by decide)).1,
   (c4_casing_agreement [['p','r','o','d','u','c','t'], ['i','d']]
      (by decide) (by decide)).2.1,
   (c4_casing_agreement [['p','r','o','d','u','c','t'], ['i','d']]
      (by decide) (by decide)).2.2.1 (by decide)⟩
